import Mathlib

/-!
Shallow embedding of the "simple-async" channel scheduler (src/channel.ts,
src/promise.ts) and proofs of its specification claims.

Tasks, events and channel state are translated directly from the TypeScript
source.  JavaScript asynchrony is modelled by explicit steps: a task whose
work returns a promise stays in `tasksInProgress` until a `settleTask` step
delivers its settlement, and `runNextTick` callbacks are counted in
`pendingTicks` and fired by `runTick`.
-/

namespace SimpleAsync

/-- Shape of a JavaScript object as far as `isPromise` inspects it:
presence and function-ness of `then` and `catch` members. -/
structure JSObject where
  hasThen : Bool
  hasCatch : Bool
  thenIsFunction : Bool
  catchIsFunction : Bool
deriving DecidableEq

/-- A JavaScript value as far as the scheduler inspects it: `null`, a
non-object primitive, or an object with a `JSObject` shape.  The `tag`
distinguishes otherwise identical values. -/
inductive JSValue where
  | null : JSValue
  | nonObject (tag : Nat) : JSValue
  | obj (shape : JSObject) (tag : Nat) : JSValue
deriving DecidableEq

/-- In JavaScript, `typeof v === "object"` holds for objects and for `null`. -/
def typeofIsObject : JSValue → Bool
  | .null => true
  | .nonObject _ => false
  | .obj _ _ => true

/-- Model of `v !== null`. -/
def isNullValue : JSValue → Bool
  | .null => true
  | _ => false

/-- Model of `"then" in v`. -/
def hasThenMember : JSValue → Bool
  | .obj s _ => s.hasThen
  | _ => false

/-- Model of `"catch" in v`. -/
def hasCatchMember : JSValue → Bool
  | .obj s _ => s.hasCatch
  | _ => false

/-- Model of `typeof v.then === "function"`. -/
def thenMemberIsFunction : JSValue → Bool
  | .obj s _ => s.thenIsFunction
  | _ => false

/-- Model of `typeof v.catch === "function"`. -/
def catchMemberIsFunction : JSValue → Bool
  | .obj s _ => s.catchIsFunction
  | _ => false

/-- Translation of `isPromise` from src/promise.ts: a value is treated as a
promise iff it is a non-null object whose `then` and `catch` members are both
present and both functions. -/
def isPromise (v : JSValue) : Bool :=
  typeofIsObject v && !isNullValue v && hasThenMember v && hasCatchMember v &&
    thenMemberIsFunction v && catchMemberIsFunction v

/-- What calling a task's work function does: return a value or throw. -/
inductive WorkResult where
  | ret (v : JSValue) : WorkResult
  | throws (e : JSValue) : WorkResult
deriving DecidableEq

/-- Eventual settlement of a promise returned by a task's work. -/
inductive Settlement where
  | fulfilled (v : JSValue) : Settlement
  | rejected (e : JSValue) : Settlement
deriving DecidableEq

/-- Translation of `ChannelTask` from src/channel.ts.  `id` models the
object identity of the task record created by each submission; `workRef`
models the identity of the work-function reference (`cancelChannelTask`
matches on it); `work` and `settlement` describe what running the work does. -/
structure ChannelTask where
  id : Nat
  workRef : Nat
  work : WorkResult
  settlement : Settlement
  priority : Int
  requestedAt : Int
deriving DecidableEq

/-- Translation of `ChannelEvent`/`ChannelTaskEvent` from src/channel.ts.
Task-scoped events carry the task's identity; `TASK_COMPLETED` carries the
`isSuccess`, `isError` and `result` fields of the source event object. -/
inductive ChannelEvent where
  | taskAdded (taskId : Nat) : ChannelEvent
  | taskStarted (taskId : Nat) : ChannelEvent
  | taskCompleted (taskId : Nat) (isSuccess isError : Bool) (result : JSValue) : ChannelEvent
  | taskCancelled (taskId : Nat) : ChannelEvent
  | cancelledAllTasks : ChannelEvent
deriving DecidableEq

/-- Translation of `Channel` from src/channel.ts (the event handler is
modelled by the global event log in `SchedState`). -/
structure Channel where
  concurrency : Int
  tasksInProgress : List ChannelTask
  tasksInQueue : List ChannelTask
deriving DecidableEq

/-- A channel together with the chronological log of emitted events and the
number of `runNextTick(proccessChannel)` callbacks not yet fired. -/
structure SchedState where
  channel : Channel
  events : List ChannelEvent
  pendingTicks : Nat
deriving DecidableEq

/-- Translation of `createChannel`: `args?.concurrency || 1` treats an
absent argument and `0` (falsy) as 1. -/
def createChannel (concurrency : Option Int) : Channel :=
  { concurrency :=
      match concurrency with
      | none => 1
      | some c => if c = 0 then 1 else c
    tasksInProgress := []
    tasksInQueue := [] }

/-- Initial scheduler state: a fresh channel, empty log, no pending ticks. -/
def initState (concurrency : Option Int) : SchedState :=
  { channel := createChannel concurrency, events := [], pendingTicks := 0 }

/-- Append an event to the log (models `sendEvent`, which forwards the event
to the channel handler and then to the task handler). -/
def emit (s : SchedState) (e : ChannelEvent) : SchedState :=
  { s with events := s.events ++ [e] }

/-- Translation of the `sortChannelQueue` comparator: equal priorities are
ordered by `requestedAt`, otherwise by `priority` (both via subtraction). -/
def sortChannelQueue (a b : ChannelTask) : Int :=
  if a.priority = b.priority then a.requestedAt - b.requestedAt
  else a.priority - b.priority

/-- Non-positive comparator result: `a` may stay before `b` under the
(stable) `Array.prototype.sort` with `sortChannelQueue`. -/
def queueLE (a b : ChannelTask) : Bool :=
  decide (sortChannelQueue a b ≤ 0)

/-- Model of `removeTaskFromInProgress` (`indexOf` + `splice`): remove the
first task with the given identity. -/
def removeTask (tid : Nat) : List ChannelTask → List ChannelTask
  | [] => []
  | t :: ts => if t.id = tid then ts else t :: removeTask tid ts

/-- Translation of `proccessChannel`: return at capacity; otherwise shift the
queue head, push it to `tasksInProgress`, emit `TASK_STARTED`, and run its
work.  A synchronous result or throw completes the task in the same call and
schedules a `runNextTick` dispatch; a promise result leaves the task in
flight until `settleTask`. -/
def proccessChannel (s : SchedState) : SchedState :=
  if (s.channel.tasksInProgress.length : Int) ≥ s.channel.concurrency then s
  else
    match s.channel.tasksInQueue with
    | [] => s
    | t :: rest =>
      let s1 : SchedState :=
        { s with channel := { s.channel with
            tasksInQueue := rest
            tasksInProgress := s.channel.tasksInProgress ++ [t] } }
      let s2 := emit s1 (.taskStarted t.id)
      match t.work with
      | .throws e =>
        let s3 : SchedState :=
          { s2 with channel := { s2.channel with
              tasksInProgress := removeTask t.id s2.channel.tasksInProgress } }
        let s4 := emit s3 (.taskCompleted t.id false true e)
        { s4 with pendingTicks := s4.pendingTicks + 1 }
      | .ret v =>
        if isPromise v then s2
        else
          let s3 : SchedState :=
            { s2 with channel := { s2.channel with
                tasksInProgress := removeTask t.id s2.channel.tasksInProgress } }
          let s4 := emit s3 (.taskCompleted t.id true false v)
          { s4 with pendingTicks := s4.pendingTicks + 1 }

/-- The `TASK_COMPLETED` event the `.then`/`.catch` continuations emit when
the promise returned by a task's work settles. -/
def settlementEvent (t : ChannelTask) : ChannelEvent :=
  match t.settlement with
  | .fulfilled w => .taskCompleted t.id true false w
  | .rejected e => .taskCompleted t.id false true e

/-- Settlement of an in-flight promise task: the `.then`/`.catch`
continuations registered by `proccessChannel` remove the task from
`tasksInProgress`, emit `TASK_COMPLETED`, and schedule a `runNextTick`
dispatch.  A no-op unless the task is in flight with a promise result. -/
def settleTask (s : SchedState) (tid : Nat) : SchedState :=
  match s.channel.tasksInProgress.find? (fun t => t.id = tid) with
  | none => s
  | some t =>
    match t.work with
    | .throws _ => s
    | .ret v =>
      if isPromise v then
        let s1 : SchedState :=
          { s with channel := { s.channel with
              tasksInProgress := removeTask t.id s.channel.tasksInProgress } }
        let s2 := emit s1 (settlementEvent t)
        { s2 with pendingTicks := s2.pendingTicks + 1 }
      else s

/-- Fire one pending `runNextTick(() => proccessChannel(channel))` callback. -/
def runTick (s : SchedState) : SchedState :=
  match s.pendingTicks with
  | 0 => s
  | n + 1 => proccessChannel { s with pendingTicks := n }

/-- Translation of `addTaskToChannel`: push the task, sort the queue with
`sortChannelQueue` (JavaScript's stable sort, modelled by `mergeSort`), emit
`TASK_ADDED`, then attempt a dispatch. -/
def addTaskToChannel (s : SchedState) (t : ChannelTask) : SchedState :=
  let s1 : SchedState :=
    { s with channel := { s.channel with
        tasksInQueue := (s.channel.tasksInQueue ++ [t]).mergeSort queueLE } }
  let s2 := emit s1 (.taskAdded t.id)
  proccessChannel s2

/-- Translation of `cancelAllChannelTasks`: swap the queue for an empty one,
emit `CANCELLED_ALL_TASKS`, then emit `TASK_CANCELLED` for each formerly
queued task in order. -/
def cancelAllChannelTasks (s : SchedState) : SchedState :=
  let tasks := s.channel.tasksInQueue
  let s1 : SchedState := { s with channel := { s.channel with tasksInQueue := [] } }
  let s2 := emit s1 .cancelledAllTasks
  tasks.foldl (fun acc t => emit acc (.taskCancelled t.id)) s2

/-- Model of `findIndex` + `splice(i, 1)` in `cancelChannelTask`: remove the
first queued task whose work reference matches, returning it and the rest. -/
def extractFirstByWorkRef (w : Nat) : List ChannelTask → Option (ChannelTask × List ChannelTask)
  | [] => none
  | t :: ts =>
    if t.workRef = w then some (t, ts)
    else
      match extractFirstByWorkRef w ts with
      | none => none
      | some (u, ts') => some (u, t :: ts')

/-- Translation of `cancelChannelTask`: find the first queued task with the
given work reference; if present, remove it and emit `TASK_CANCELLED`. -/
def cancelChannelTask (s : SchedState) (w : Nat) : SchedState :=
  match extractFirstByWorkRef w s.channel.tasksInQueue with
  | none => s
  | some (t, q') =>
    let s1 : SchedState := { s with channel := { s.channel with tasksInQueue := q' } }
    emit s1 (.taskCancelled t.id)

/-- Translation of `addTaskToChannelExclusively`: cancel all queued tasks if
the queue is non-empty, then submit normally. -/
def addTaskToChannelExclusively (s : SchedState) (t : ChannelTask) : SchedState :=
  if s.channel.tasksInQueue.isEmpty then addTaskToChannel s t
  else addTaskToChannel (cancelAllChannelTasks s) t

/-- Translation of the `ChannelTaskResult` object delivered to the submitter. -/
structure ChannelTaskResult where
  isSuccess : Bool
  isError : Bool
  isCancelation : Bool
  result : Option JSValue
  error : Option JSValue
deriving DecidableEq

/-- The success result object built in `addTaskToChannel`'s event handler. -/
def successResult (v : JSValue) : ChannelTaskResult :=
  { isSuccess := true, isError := false, isCancelation := false
    result := some v, error := none }

/-- The failure result object built in `addTaskToChannel`'s event handler:
its `error` field is the event's `result` field, unmodified. -/
def failureResult (e : JSValue) : ChannelTaskResult :=
  { isSuccess := false, isError := true, isCancelation := false
    result := none, error := some e }

/-- The cancellation result object (also returned directly by
`addTaskToChannelIfEmpty` when the queue is non-empty). -/
def cancelledResult : ChannelTaskResult :=
  { isSuccess := false, isError := false, isCancelation := true
    result := none, error := none }

/-- Translation of `addTaskToChannelIfEmpty`.  The second component is the
immediately resolved result (`Promise.resolve({... isCancelation: true})`)
when the queue is non-empty; otherwise the handle resolves later from the
task's events. -/
def addTaskToChannelIfEmpty (s : SchedState) (t : ChannelTask) :
    SchedState × Option ChannelTaskResult :=
  if s.channel.tasksInQueue.isEmpty then (addTaskToChannel s t, none)
  else (s, some cancelledResult)

/-- Translation of the per-submission event handler in `addTaskToChannel`:
which events resolve the returned handle, and to what. -/
def resolveFromEvent (tid : Nat) (e : ChannelEvent) : Option ChannelTaskResult :=
  match e with
  | .taskCompleted i isSucc _ r =>
    if i = tid then
      if isSucc then some (successResult r) else some (failureResult r)
    else none
  | .taskCancelled i => if i = tid then some cancelledResult else none
  | _ => none

/-- A promise resolves at most once: the handle's value is determined by the
first resolving event in the task's event stream. -/
def handleResolution (tid : Nat) : List ChannelEvent → Option ChannelTaskResult
  | [] => none
  | e :: es =>
    match resolveFromEvent tid e with
    | some r => some r
    | none => handleResolution tid es

/-- The task identity carried by an event, if any. -/
def eventTaskId : ChannelEvent → Option Nat
  | .taskAdded i => some i
  | .taskStarted i => some i
  | .taskCompleted i _ _ _ => some i
  | .taskCancelled i => some i
  | .cancelledAllTasks => none

/-- The events delivered for one task (what its per-task observer sees). -/
def eventsFor (tid : Nat) (es : List ChannelEvent) : List ChannelEvent :=
  es.filter (fun e => eventTaskId e = some tid)

/-- Identities of a task list. -/
def idsOf (l : List ChannelTask) : List Nat := l.map (·.id)

/-- All task identities currently held by the scheduler. -/
def stateIds (s : SchedState) : List Nat :=
  idsOf s.channel.tasksInQueue ++ idsOf s.channel.tasksInProgress

/-- One step of the public API or of the modelled asynchronous environment. -/
inductive Op where
  | submit (t : ChannelTask) : Op
  | submitExclusive (t : ChannelTask) : Op
  | submitIfIdle (t : ChannelTask) : Op
  | cancelAll : Op
  | cancelOne (workRef : Nat) : Op
  | settle (tid : Nat) : Op
  | tick : Op
deriving DecidableEq

/-- Apply one step to the scheduler state. -/
def applyOp (s : SchedState) : Op → SchedState
  | .submit t => addTaskToChannel s t
  | .submitExclusive t => addTaskToChannelExclusively s t
  | .submitIfIdle t => (addTaskToChannelIfEmpty s t).1
  | .cancelAll => cancelAllChannelTasks s
  | .cancelOne w => cancelChannelTask s w
  | .settle tid => settleTask s tid
  | .tick => runTick s

/-- Run a sequence of steps. -/
def runOps (s : SchedState) (ops : List Op) : SchedState := ops.foldl applyOp s

/-- The task identities submitted by a step (each submission in the source
creates a fresh task object; distinct ids model distinct objects). -/
def opSubmitIds : Op → List Nat
  | .submit t => [t.id]
  | .submitExclusive t => [t.id]
  | .submitIfIdle t => [t.id]
  | _ => []

/-! ### Basic lemmas about the embedded operations -/

theorem removeTask_length_le (tid : Nat) (l : List ChannelTask) :
    (removeTask tid l).length ≤ l.length := by
  induction l with
  | nil => simp [removeTask]
  | cons t ts ih =>
    by_cases h : t.id = tid
    · simp only [removeTask, if_pos h, List.length_cons]
      omega
    · simp only [removeTask, if_neg h, List.length_cons]
      omega

theorem removeTask_of_not_mem (tid : Nat) :
    ∀ (l : List ChannelTask), tid ∉ idsOf l → removeTask tid l = l
  | [], _ => rfl
  | t :: ts, h => by
    have h1 : ¬ t.id = tid := by
      intro he
      exact h (by simp [idsOf, he])
    have h2 : tid ∉ idsOf ts := by
      intro hm
      apply h
      simp only [idsOf, List.map_cons, List.mem_cons]
      exact Or.inr hm
    simp [removeTask, h1, removeTask_of_not_mem tid ts h2]

theorem removeTask_append_self (t : ChannelTask) :
    ∀ (l : List ChannelTask), t.id ∉ idsOf l → removeTask t.id (l ++ [t]) = l
  | [], _ => by simp [removeTask]
  | u :: us, h => by
    have h1 : ¬ u.id = t.id := by
      intro he
      exact h (by simp [idsOf, he])
    have h2 : t.id ∉ idsOf us := by
      intro hm
      apply h
      simp only [idsOf, List.map_cons, List.mem_cons]
      exact Or.inr hm
    simp [removeTask, h1, removeTask_append_self t us h2]

theorem proccessChannel_at_capacity (s : SchedState)
    (h : s.channel.concurrency ≤ (s.channel.tasksInProgress.length : Int)) :
    proccessChannel s = s := by
  unfold proccessChannel
  rw [if_pos h]

theorem proccessChannel_queue_nil (s : SchedState) (h : s.channel.tasksInQueue = []) :
    proccessChannel s = s := by
  unfold proccessChannel
  rw [h]
  split <;> rfl

theorem proccessChannel_throws_eq (s : SchedState) (t : ChannelTask)
    (rest : List ChannelTask) (e : JSValue)
    (hcap : (s.channel.tasksInProgress.length : Int) < s.channel.concurrency)
    (hq : s.channel.tasksInQueue = t :: rest)
    (hw : t.work = WorkResult.throws e) :
    proccessChannel s =
      { channel := { concurrency := s.channel.concurrency
                     tasksInProgress := removeTask t.id (s.channel.tasksInProgress ++ [t])
                     tasksInQueue := rest }
        events := s.events ++ [ChannelEvent.taskStarted t.id,
                               ChannelEvent.taskCompleted t.id false true e]
        pendingTicks := s.pendingTicks + 1 } := by
  obtain ⟨⟨c, p, q⟩, ev, pt⟩ := s
  dsimp only at hq hcap ⊢
  subst hq
  unfold proccessChannel
  rw [if_neg (not_le.mpr hcap)]
  dsimp only
  rw [hw]
  simp [emit]

theorem proccessChannel_promise_eq (s : SchedState) (t : ChannelTask)
    (rest : List ChannelTask) (v : JSValue)
    (hcap : (s.channel.tasksInProgress.length : Int) < s.channel.concurrency)
    (hq : s.channel.tasksInQueue = t :: rest)
    (hw : t.work = WorkResult.ret v) (hp : isPromise v = true) :
    proccessChannel s =
      { channel := { concurrency := s.channel.concurrency
                     tasksInProgress := s.channel.tasksInProgress ++ [t]
                     tasksInQueue := rest }
        events := s.events ++ [ChannelEvent.taskStarted t.id]
        pendingTicks := s.pendingTicks } := by
  obtain ⟨⟨c, p, q⟩, ev, pt⟩ := s
  dsimp only at hq hcap ⊢
  subst hq
  unfold proccessChannel
  rw [if_neg (not_le.mpr hcap)]
  dsimp only
  rw [hw]
  simp [emit, hp]

theorem proccessChannel_sync_eq (s : SchedState) (t : ChannelTask)
    (rest : List ChannelTask) (v : JSValue)
    (hcap : (s.channel.tasksInProgress.length : Int) < s.channel.concurrency)
    (hq : s.channel.tasksInQueue = t :: rest)
    (hw : t.work = WorkResult.ret v) (hp : isPromise v = false) :
    proccessChannel s =
      { channel := { concurrency := s.channel.concurrency
                     tasksInProgress := removeTask t.id (s.channel.tasksInProgress ++ [t])
                     tasksInQueue := rest }
        events := s.events ++ [ChannelEvent.taskStarted t.id,
                               ChannelEvent.taskCompleted t.id true false v]
        pendingTicks := s.pendingTicks + 1 } := by
  obtain ⟨⟨c, p, q⟩, ev, pt⟩ := s
  dsimp only at hq hcap ⊢
  subst hq
  unfold proccessChannel
  rw [if_neg (not_le.mpr hcap)]
  dsimp only
  rw [hw]
  simp [emit, hp]

theorem foldl_emit_cancelled :
    ∀ (tasks : List ChannelTask) (s : SchedState),
      tasks.foldl (fun acc t => emit acc (.taskCancelled t.id)) s =
        { s with events :=
            s.events ++ tasks.map (fun t => ChannelEvent.taskCancelled t.id) } := by
  intro tasks
  induction tasks with
  | nil => intro s; simp
  | cons t ts ih =>
    intro s
    rw [List.foldl_cons, ih]
    simp [emit]

theorem cancelAllChannelTasks_eq (s : SchedState) :
    cancelAllChannelTasks s =
      { channel := { concurrency := s.channel.concurrency
                     tasksInProgress := s.channel.tasksInProgress
                     tasksInQueue := [] }
        events := s.events ++ ChannelEvent.cancelledAllTasks ::
          s.channel.tasksInQueue.map (fun t => ChannelEvent.taskCancelled t.id)
        pendingTicks := s.pendingTicks } := by
  unfold cancelAllChannelTasks
  rw [foldl_emit_cancelled]
  simp [emit]

/-! ### C1: cancelAll on an empty queue -/

/-- A sample task used to instantiate theorems at concrete inputs. -/
def sampleTask (i : Nat) : ChannelTask :=
  { id := i, workRef := i, work := .ret (.nonObject 0)
    settlement := .fulfilled .null, priority := 0, requestedAt := (i : Int) }

/-- C1 counterexample: on a scheduler with an empty run queue,
`cancelAllChannelTasks` is not a no-op on the event log — it still emits an
event (namely `CANCELLED_ALL_TASKS`), contradicting the claim that no events
at all are emitted. -/
theorem cancelAll_empty_emits_counterexample :
    ¬ ((cancelAllChannelTasks (initState (some 1))).events = (initState (some 1)).events) := by
  decide

/-- C1 (amended): `cancelAllChannelTasks` on a scheduler whose run queue is
empty emits exactly one `CANCELLED_ALL_TASKS` event and no `TASK_CANCELLED`
events, and leaves the queue, the in-flight set and the pending ticks
unchanged. -/
theorem cancelAll_empty_queue_eq (s : SchedState) (h : s.channel.tasksInQueue = []) :
    cancelAllChannelTasks s =
      { s with events := s.events ++ [ChannelEvent.cancelledAllTasks] } := by
  obtain ⟨⟨c, p, q⟩, ev, pt⟩ := s
  dsimp only at h
  subst h
  rfl

/-- C1 witness: the amended statement evaluated on a concrete empty-queue
scheduler. -/
theorem cancelAll_empty_queue_eq_witness :
    cancelAllChannelTasks (initState (some 1)) =
      { initState (some 1) with
        events := (initState (some 1)).events ++ [ChannelEvent.cancelledAllTasks] } :=
  cancelAll_empty_queue_eq (initState (some 1)) rfl

/-! ### C6: exclusive submission -/

/-- C6: `addTaskToChannelExclusively` on a non-empty run queue first cancels
every queued task (one `CANCELLED_ALL_TASKS` event, then one `TASK_CANCELLED`
per formerly queued task in queue order) leaving the in-flight set untouched,
and then performs a normal `addTaskToChannel`; on an empty run queue it is
exactly a normal `addTaskToChannel`. -/
theorem submitExclusive_spec (s : SchedState) (t : ChannelTask) :
    (s.channel.tasksInQueue ≠ [] →
      addTaskToChannelExclusively s t = addTaskToChannel (cancelAllChannelTasks s) t ∧
      (cancelAllChannelTasks s).channel.tasksInProgress = s.channel.tasksInProgress ∧
      (cancelAllChannelTasks s).channel.tasksInQueue = [] ∧
      (cancelAllChannelTasks s).events =
        s.events ++ ChannelEvent.cancelledAllTasks ::
          s.channel.tasksInQueue.map (fun u => ChannelEvent.taskCancelled u.id)) ∧
    (s.channel.tasksInQueue = [] →
      addTaskToChannelExclusively s t = addTaskToChannel s t) := by
  constructor
  · intro h
    refine ⟨?_, ?_, ?_, ?_⟩
    · unfold addTaskToChannelExclusively
      rw [if_neg (by simpa [List.isEmpty_iff] using h)]
    · rw [cancelAllChannelTasks_eq]
    · rw [cancelAllChannelTasks_eq]
    · rw [cancelAllChannelTasks_eq]
  · intro h
    unfold addTaskToChannelExclusively
    rw [if_pos (by simpa [List.isEmpty_iff] using h)]

/-- C6 witness: both branches of the exclusive-submission behaviour at
concrete schedulers. -/
theorem submitExclusive_spec_witness :
    addTaskToChannelExclusively ⟨⟨1, [], [sampleTask 0]⟩, [], 0⟩ (sampleTask 1) =
      addTaskToChannel (cancelAllChannelTasks ⟨⟨1, [], [sampleTask 0]⟩, [], 0⟩)
        (sampleTask 1) ∧
    addTaskToChannelExclusively (initState (some 1)) (sampleTask 1) =
      addTaskToChannel (initState (some 1)) (sampleTask 1) :=
  ⟨((submitExclusive_spec ⟨⟨1, [], [sampleTask 0]⟩, [], 0⟩ (sampleTask 1)).1
      (by decide)).1,
   (submitExclusive_spec (initState (some 1)) (sampleTask 1)).2 rfl⟩

/-! ### C7: if-idle submission -/

/-- C7: `addTaskToChannelIfEmpty` on a non-empty run queue immediately
returns the `Cancelled` outcome (`isCancelation = true`) without changing any
scheduler state and without emitting any event; on an empty run queue (even
with tasks in flight) it is exactly a normal `addTaskToChannel`. -/
theorem submitIfIdle_spec (s : SchedState) (t : ChannelTask) :
    (s.channel.tasksInQueue ≠ [] →
      addTaskToChannelIfEmpty s t = (s, some cancelledResult) ∧
      cancelledResult.isCancelation = true) ∧
    (s.channel.tasksInQueue = [] →
      addTaskToChannelIfEmpty s t = (addTaskToChannel s t, none)) := by
  constructor
  · intro h
    unfold addTaskToChannelIfEmpty
    rw [if_neg (by simpa [List.isEmpty_iff] using h)]
    exact ⟨rfl, rfl⟩
  · intro h
    unfold addTaskToChannelIfEmpty
    rw [if_pos (by simpa [List.isEmpty_iff] using h)]

/-- C7 witness: both branches of the if-idle behaviour at concrete
schedulers, including one with a task in flight but an empty queue. -/
theorem submitIfIdle_spec_witness :
    addTaskToChannelIfEmpty ⟨⟨1, [], [sampleTask 0]⟩, [], 0⟩ (sampleTask 1) =
      (⟨⟨1, [], [sampleTask 0]⟩, [], 0⟩, some cancelledResult) ∧
    addTaskToChannelIfEmpty ⟨⟨1, [sampleTask 2], []⟩, [], 0⟩ (sampleTask 1) =
      (addTaskToChannel ⟨⟨1, [sampleTask 2], []⟩, [], 0⟩ (sampleTask 1), none) :=
  ⟨((submitIfIdle_spec ⟨⟨1, [], [sampleTask 0]⟩, [], 0⟩ (sampleTask 1)).1
      (by decide)).1,
   (submitIfIdle_spec ⟨⟨1, [sampleTask 2], []⟩, [], 0⟩ (sampleTask 1)).2 rfl⟩

/-! ### C8: createChannel concurrency defaulting -/

/-- C8: `createChannel` turns an omitted, `undefined` or `0` concurrency
argument into concurrency `1` (the `|| 1` fallback treats `0` as absent),
keeps any non-zero argument unchanged, and can never produce a channel whose
concurrency is `0`. -/
theorem createChannel_concurrency_default :
    (createChannel none).concurrency = 1 ∧
    (createChannel (some 0)).concurrency = 1 ∧
    (∀ c : Int, ¬ c = 0 → (createChannel (some c)).concurrency = c) ∧
    (∀ a : Option Int, ¬ (createChannel a).concurrency = 0) := by
  refine ⟨rfl, rfl, ?_, ?_⟩
  · intro c hc
    simp [createChannel, hc]
  · intro a
    match a with
    | none => decide
    | some c =>
      by_cases hc : c = 0 <;> simp [createChannel, hc]

/-- C8 witness: a non-zero concurrency argument is kept unchanged. -/
theorem createChannel_concurrency_default_witness :
    (createChannel (some 5)).concurrency = 5 :=
  createChannel_concurrency_default.2.2.1 5 (by decide)

/-! ### Equations for `settleTask` and `cancelChannelTask` -/

theorem settleTask_not_found (s : SchedState) (tid : Nat)
    (h : s.channel.tasksInProgress.find? (fun t => t.id = tid) = none) :
    settleTask s tid = s := by
  unfold settleTask
  rw [h]

theorem settleTask_found_eq (s : SchedState) (tid : Nat) (t : ChannelTask) (v : JSValue)
    (hf : s.channel.tasksInProgress.find? (fun x => x.id = tid) = some t)
    (hw : t.work = WorkResult.ret v) (hp : isPromise v = true) :
    settleTask s tid =
      { channel := { concurrency := s.channel.concurrency
                     tasksInProgress := removeTask t.id s.channel.tasksInProgress
                     tasksInQueue := s.channel.tasksInQueue }
        events := s.events ++ [settlementEvent t]
        pendingTicks := s.pendingTicks + 1 } := by
  unfold settleTask
  rw [hf]
  dsimp only
  rw [hw]
  dsimp only
  rw [if_pos hp]
  simp [emit]

theorem cancelChannelTask_not_found (s : SchedState) (w : Nat)
    (h : extractFirstByWorkRef w s.channel.tasksInQueue = none) :
    cancelChannelTask s w = s := by
  unfold cancelChannelTask
  rw [h]

theorem cancelChannelTask_found_eq (s : SchedState) (w : Nat) (t : ChannelTask)
    (q' : List ChannelTask)
    (h : extractFirstByWorkRef w s.channel.tasksInQueue = some (t, q')) :
    cancelChannelTask s w =
      { channel := { concurrency := s.channel.concurrency
                     tasksInProgress := s.channel.tasksInProgress
                     tasksInQueue := q' }
        events := s.events ++ [ChannelEvent.taskCancelled t.id]
        pendingTicks := s.pendingTicks } := by
  unfold cancelChannelTask
  rw [h]
  simp [emit]

/-! ### C2: the in-flight set never exceeds the concurrency limit -/

theorem proccessChannel_bound (s : SchedState)
    (hinv : (s.channel.tasksInProgress.length : Int) ≤ s.channel.concurrency) :
    (proccessChannel s).channel.concurrency = s.channel.concurrency ∧
    ((proccessChannel s).channel.tasksInProgress.length : Int) ≤ s.channel.concurrency := by
  by_cases hcap : s.channel.concurrency ≤ (s.channel.tasksInProgress.length : Int)
  · rw [proccessChannel_at_capacity s hcap]
    exact ⟨rfl, hinv⟩
  · push_neg at hcap
    match hq : s.channel.tasksInQueue with
    | [] =>
      rw [proccessChannel_queue_nil s hq]
      exact ⟨rfl, hinv⟩
    | t :: rest =>
      match hw : t.work with
      | .throws e =>
        rw [proccessChannel_throws_eq s t rest e hcap hq hw]
        refine ⟨rfl, ?_⟩
        show ((removeTask t.id (s.channel.tasksInProgress ++ [t])).length : Int) ≤
          s.channel.concurrency
        have h1 := removeTask_length_le t.id (s.channel.tasksInProgress ++ [t])
        simp only [List.length_append, List.length_cons, List.length_nil] at h1
        omega
      | .ret v =>
        by_cases hp : isPromise v = true
        · rw [proccessChannel_promise_eq s t rest v hcap hq hw hp]
          refine ⟨rfl, ?_⟩
          show (((s.channel.tasksInProgress ++ [t]).length : Int)) ≤ s.channel.concurrency
          simp only [List.length_append, List.length_cons, List.length_nil]
          omega
        · rw [proccessChannel_sync_eq s t rest v hcap hq hw (by simpa using hp)]
          refine ⟨rfl, ?_⟩
          show ((removeTask t.id (s.channel.tasksInProgress ++ [t])).length : Int) ≤
            s.channel.concurrency
          have h1 := removeTask_length_le t.id (s.channel.tasksInProgress ++ [t])
          simp only [List.length_append, List.length_cons, List.length_nil] at h1
          omega

theorem addTaskToChannel_bound (s : SchedState) (t : ChannelTask)
    (hinv : (s.channel.tasksInProgress.length : Int) ≤ s.channel.concurrency) :
    (addTaskToChannel s t).channel.concurrency = s.channel.concurrency ∧
    ((addTaskToChannel s t).channel.tasksInProgress.length : Int) ≤ s.channel.concurrency :=
  proccessChannel_bound _ hinv

theorem settleTask_bound (s : SchedState) (tid : Nat)
    (hinv : (s.channel.tasksInProgress.length : Int) ≤ s.channel.concurrency) :
    (settleTask s tid).channel.concurrency = s.channel.concurrency ∧
    ((settleTask s tid).channel.tasksInProgress.length : Int) ≤ s.channel.concurrency := by
  match hf : s.channel.tasksInProgress.find? (fun x => x.id = tid) with
  | none =>
    rw [settleTask_not_found s tid hf]
    exact ⟨rfl, hinv⟩
  | some t =>
    match hw : t.work with
    | .throws e =>
      unfold settleTask
      rw [hf]
      dsimp only
      rw [hw]
      exact ⟨rfl, hinv⟩
    | .ret v =>
      by_cases hp : isPromise v = true
      · rw [settleTask_found_eq s tid t v hf hw hp]
        refine ⟨rfl, ?_⟩
        show ((removeTask t.id s.channel.tasksInProgress).length : Int) ≤
          s.channel.concurrency
        have h1 := removeTask_length_le t.id s.channel.tasksInProgress
        omega
      · unfold settleTask
        rw [hf]
        dsimp only
        rw [hw]
        dsimp only
        rw [if_neg hp]
        exact ⟨rfl, hinv⟩

/-- C2: every public operation and every dispatch or settlement step of the
scheduler preserves the invariant that the number of in-flight tasks is at
most the (positive) concurrency limit, and never changes the limit itself. -/
theorem inFlight_bounded (s : SchedState) (op : Op)
    (hpos : 0 < s.channel.concurrency)
    (hinv : (s.channel.tasksInProgress.length : Int) ≤ s.channel.concurrency) :
    (applyOp s op).channel.concurrency = s.channel.concurrency ∧
    ((applyOp s op).channel.tasksInProgress.length : Int) ≤
      (applyOp s op).channel.concurrency := by
  have conv1 :
      ∀ s' : SchedState,
        s'.channel.concurrency = s.channel.concurrency →
        ((s'.channel.tasksInProgress.length : Int) ≤ s.channel.concurrency) →
        s'.channel.concurrency = s.channel.concurrency ∧
        ((s'.channel.tasksInProgress.length : Int) ≤ s'.channel.concurrency) := by
    intro s' h1 h2
    exact ⟨h1, by rw [h1]; exact h2⟩
  match op with
  | .submit t =>
    have heq : applyOp s (Op.submit t) = addTaskToChannel s t := rfl
    rw [heq]
    have h := addTaskToChannel_bound s t hinv
    exact conv1 _ h.1 h.2
  | .submitExclusive t =>
    by_cases h : s.channel.tasksInQueue.isEmpty
    · have heq : applyOp s (Op.submitExclusive t) = addTaskToChannel s t := by
        simp [applyOp, addTaskToChannelExclusively, h]
      rw [heq]
      have hb := addTaskToChannel_bound s t hinv
      exact conv1 _ hb.1 hb.2
    · have heq : applyOp s (Op.submitExclusive t) =
          addTaskToChannel (cancelAllChannelTasks s) t := by
        simp [applyOp, addTaskToChannelExclusively, h]
      rw [heq]
      have hc := cancelAllChannelTasks_eq s
      have hcc : (cancelAllChannelTasks s).channel.concurrency = s.channel.concurrency := by
        rw [hc]
      have hcp : (cancelAllChannelTasks s).channel.tasksInProgress =
          s.channel.tasksInProgress := by
        rw [hc]
      have hb := addTaskToChannel_bound (cancelAllChannelTasks s) t
        (by rw [hcc, hcp]; exact hinv)
      rw [hcc] at hb
      exact conv1 _ hb.1 hb.2
  | .submitIfIdle t =>
    by_cases h : s.channel.tasksInQueue.isEmpty
    · have heq : applyOp s (Op.submitIfIdle t) = addTaskToChannel s t := by
        simp [applyOp, addTaskToChannelIfEmpty, h]
      rw [heq]
      have hb := addTaskToChannel_bound s t hinv
      exact conv1 _ hb.1 hb.2
    · have heq : applyOp s (Op.submitIfIdle t) = s := by
        simp [applyOp, addTaskToChannelIfEmpty, h]
      rw [heq]
      exact conv1 s rfl hinv
  | .cancelAll =>
    have heq : applyOp s Op.cancelAll = cancelAllChannelTasks s := rfl
    rw [heq, cancelAllChannelTasks_eq s]
    exact ⟨rfl, hinv⟩
  | .cancelOne w =>
    have heq : applyOp s (Op.cancelOne w) = cancelChannelTask s w := rfl
    rw [heq]
    match he : extractFirstByWorkRef w s.channel.tasksInQueue with
    | none =>
      rw [cancelChannelTask_not_found s w he]
      exact ⟨rfl, hinv⟩
    | some (t, q') =>
      rw [cancelChannelTask_found_eq s w t q' he]
      exact ⟨rfl, hinv⟩
  | .settle tid =>
    have heq : applyOp s (Op.settle tid) = settleTask s tid := rfl
    rw [heq]
    have h := settleTask_bound s tid hinv
    exact conv1 _ h.1 h.2
  | .tick =>
    have heq0 : applyOp s Op.tick = runTick s := rfl
    rw [heq0]
    match hpt : s.pendingTicks with
    | 0 =>
      have heq : runTick s = s := by
        unfold runTick
        rw [hpt]
      rw [heq]
      exact conv1 s rfl hinv
    | n + 1 =>
      have heq : runTick s = proccessChannel { s with pendingTicks := n } := by
        unfold runTick
        rw [hpt]
      rw [heq]
      have h := proccessChannel_bound { s with pendingTicks := n } hinv
      exact conv1 _ h.1 h.2

/-- C2 witness: the bound evaluated for a concrete submission to a fresh
channel with concurrency 1. -/
theorem inFlight_bounded_witness :
    (0 : Int) < (initState (some 1)).channel.concurrency ∧
    ((applyOp (initState (some 1)) (Op.submit (sampleTask 0))).channel.concurrency =
        (initState (some 1)).channel.concurrency ∧
      (((applyOp (initState (some 1)) (Op.submit (sampleTask 0))).channel.tasksInProgress.length : Int) ≤
        (applyOp (initState (some 1)) (Op.submit (sampleTask 0))).channel.concurrency)) :=
  ⟨by decide,
   inFlight_bounded (initState (some 1)) (Op.submit (sampleTask 0)) (by decide) (by decide)⟩

/-! ### C3: dispatch order — priority, then arrival -/

theorem queueLE_refl (a : ChannelTask) : queueLE a a = true := by
  simp [queueLE, sortChannelQueue]

theorem queueLE_trans (a b c : ChannelTask) (h1 : queueLE a b = true)
    (h2 : queueLE b c = true) : queueLE a c = true := by
  simp only [queueLE, sortChannelQueue, decide_eq_true_eq] at h1 h2 ⊢
  split at h1 <;> split at h2 <;> split <;> omega

theorem queueLE_total_bool (a b : ChannelTask) : (queueLE a b || queueLE b a) = true := by
  simp only [queueLE, sortChannelQueue, Bool.or_eq_true, decide_eq_true_eq]
  split <;> split <;> omega

theorem getElem?_append_middle (es : List ChannelEvent) (e : ChannelEvent)
    (fs : List ChannelEvent) : (es ++ e :: fs)[es.length]? = some e := by
  induction es with
  | nil => simp
  | cons a as ih => simpa using ih

/-- C3: the run queue built by a submission is sorted by `(priority,
requestedAt)`; the sort is stable, so two tasks with the same priority and
non-decreasing arrival timestamps keep their submission order; and a dispatch
step starts exactly the queue head, which is minimal for the queue ordering.
Hence equal-priority tasks start in strict arrival order regardless of the
concurrency limit. -/
theorem dispatch_start_order (s : SchedState) (t : ChannelTask)
    (hsorted : s.channel.tasksInQueue.Pairwise (fun a b => queueLE a b = true)) :
    ((s.channel.tasksInQueue ++ [t]).mergeSort queueLE).Pairwise
        (fun a b => queueLE a b = true) ∧
    (∀ a b : ChannelTask, a.priority = b.priority → a.requestedAt ≤ b.requestedAt →
      [a, b].Sublist (s.channel.tasksInQueue ++ [t]) →
      [a, b].Sublist ((s.channel.tasksInQueue ++ [t]).mergeSort queueLE)) ∧
    (∀ (u : ChannelTask) (rest : List ChannelTask),
      s.channel.tasksInQueue = u :: rest →
      (s.channel.tasksInProgress.length : Int) < s.channel.concurrency →
      (proccessChannel s).events[s.events.length]? =
        some (ChannelEvent.taskStarted u.id) ∧
      ∀ w ∈ s.channel.tasksInQueue, queueLE u w = true) := by
  refine ⟨?_, ?_, ?_⟩
  · exact List.sorted_mergeSort queueLE_trans queueLE_total_bool
      (s.channel.tasksInQueue ++ [t])
  · intro a b hpr hreq hsub
    have hab : queueLE a b = true := by
      simp only [queueLE, sortChannelQueue, decide_eq_true_eq]
      rw [if_pos hpr]
      omega
    exact List.pair_sublist_mergeSort queueLE_trans queueLE_total_bool hab hsub
  · intro u rest hq hcap
    constructor
    · match hw : u.work with
      | .throws e =>
        rw [proccessChannel_throws_eq s u rest e hcap hq hw]
        exact getElem?_append_middle s.events _ _
      | .ret v =>
        by_cases hp : isPromise v = true
        · rw [proccessChannel_promise_eq s u rest v hcap hq hw hp]
          exact getElem?_append_middle s.events _ _
        · rw [proccessChannel_sync_eq s u rest v hcap hq hw (by simpa using hp)]
          exact getElem?_append_middle s.events _ _
    · intro w hw
      rw [hq] at hsorted hw
      rcases List.mem_cons.1 hw with h | h
      · rw [h]
        exact queueLE_refl u
      · exact (List.pairwise_cons.1 hsorted).1 w h

/-- C3 witness: a two-task scheduler with capacity available; the head of the
sorted queue is started and is minimal. -/
theorem dispatch_start_order_witness :
    (((⟨⟨2, [], [sampleTask 0]⟩, [], 0⟩ : SchedState).channel.tasksInQueue ++
        [sampleTask 1]).mergeSort queueLE).Pairwise (fun a b => queueLE a b = true) ∧
    ((proccessChannel (⟨⟨2, [], [sampleTask 0]⟩, [], 0⟩ : SchedState)).events[
        (⟨⟨2, [], [sampleTask 0]⟩, [], 0⟩ : SchedState).events.length]? =
      some (ChannelEvent.taskStarted (sampleTask 0).id) ∧
      ∀ w ∈ (⟨⟨2, [], [sampleTask 0]⟩, [], 0⟩ : SchedState).channel.tasksInQueue,
        queueLE (sampleTask 0) w = true) :=
  ⟨(dispatch_start_order ⟨⟨2, [], [sampleTask 0]⟩, [], 0⟩ (sampleTask 1)
      (by decide)).1,
   (dispatch_start_order ⟨⟨2, [], [sampleTask 0]⟩, [], 0⟩ (sampleTask 1)
      (by decide)).2.2 (sampleTask 0) [] rfl (by decide)⟩

/-! ### C4: task failures are contained -/

theorem proccessChannel_starts_head (s : SchedState) (u : ChannelTask)
    (rest : List ChannelTask)
    (hq : s.channel.tasksInQueue = u :: rest)
    (hcap : (s.channel.tasksInProgress.length : Int) < s.channel.concurrency) :
    (proccessChannel s).events[s.events.length]? =
      some (ChannelEvent.taskStarted u.id) := by
  match hw : u.work with
  | .throws e =>
    rw [proccessChannel_throws_eq s u rest e hcap hq hw]
    exact getElem?_append_middle _ _ _
  | .ret v =>
    by_cases hp : isPromise v = true
    · rw [proccessChannel_promise_eq s u rest v hcap hq hw hp]
      exact getElem?_append_middle _ _ _
    · rw [proccessChannel_sync_eq s u rest v hcap hq hw (by simpa using hp)]
      exact getElem?_append_middle _ _ _

theorem runTick_succ (s : SchedState) (n : Nat) (h : s.pendingTicks = n + 1) :
    runTick s = proccessChannel { s with pendingTicks := n } := by
  unfold runTick
  rw [h]

theorem addTask_empty_throws_eq (s : SchedState) (t : ChannelTask) (e : JSValue)
    (hq : s.channel.tasksInQueue = [])
    (hcap : (s.channel.tasksInProgress.length : Int) < s.channel.concurrency)
    (hw : t.work = WorkResult.throws e) :
    addTaskToChannel s t =
      { channel := { concurrency := s.channel.concurrency
                     tasksInProgress := removeTask t.id (s.channel.tasksInProgress ++ [t])
                     tasksInQueue := [] }
        events := s.events ++ [ChannelEvent.taskAdded t.id, ChannelEvent.taskStarted t.id,
                               ChannelEvent.taskCompleted t.id false true e]
        pendingTicks := s.pendingTicks + 1 } := by
  obtain ⟨⟨c, p, q⟩, ev, pt⟩ := s
  dsimp only at hq hcap ⊢
  subst hq
  unfold addTaskToChannel
  rw [proccessChannel_throws_eq _ t [] e hcap (by simp [emit]) hw]
  simp [emit]

theorem handleResolution_throw_events (tid : Nat) (e : JSValue) :
    handleResolution tid [ChannelEvent.taskAdded tid, ChannelEvent.taskStarted tid,
      ChannelEvent.taskCompleted tid false true e] = some (failureResult e) := by
  simp [handleResolution, resolveFromEvent]

/-- C4: a task whose work throws synchronously resolves its handle to the
`Failure` outcome carrying exactly the thrown error (part 1); the scheduler
survives it and the deferred tick still dispatches the next queued task
(part 2); and a task whose promise rejects resolves its handle to the
`Failure` outcome carrying exactly the rejection error (part 3).  The handle
resolves, never rejects: `handleResolution` yields a `ChannelTaskResult`. -/
theorem task_failure_contained :
    (∀ (s : SchedState) (t : ChannelTask) (e : JSValue),
      s.channel.tasksInQueue = [] →
      (s.channel.tasksInProgress.length : Int) < s.channel.concurrency →
      t.work = WorkResult.throws e →
      (addTaskToChannel s t).events.drop s.events.length =
        [ChannelEvent.taskAdded t.id, ChannelEvent.taskStarted t.id,
         ChannelEvent.taskCompleted t.id false true e] ∧
      handleResolution t.id ((addTaskToChannel s t).events.drop s.events.length) =
        some (failureResult e)) ∧
    (∀ (s : SchedState) (t u : ChannelTask) (rest : List ChannelTask) (e : JSValue),
      s.channel.tasksInQueue = t :: u :: rest →
      t.work = WorkResult.throws e →
      (s.channel.tasksInProgress.length : Int) < s.channel.concurrency →
      t.id ∉ idsOf s.channel.tasksInProgress →
      (proccessChannel s).pendingTicks = s.pendingTicks + 1 ∧
      (runTick (proccessChannel s)).events[(proccessChannel s).events.length]? =
        some (ChannelEvent.taskStarted u.id)) ∧
    (∀ (s : SchedState) (tid : Nat) (t : ChannelTask) (v e : JSValue),
      s.channel.tasksInProgress.find? (fun x => x.id = tid) = some t →
      t.work = WorkResult.ret v → isPromise v = true →
      t.settlement = Settlement.rejected e →
      (settleTask s tid).events.drop s.events.length =
        [ChannelEvent.taskCompleted t.id false true e] ∧
      handleResolution t.id ((settleTask s tid).events.drop s.events.length) =
        some (failureResult e)) := by
  refine ⟨?_, ?_, ?_⟩
  · intro s t e hq hcap hw
    rw [addTask_empty_throws_eq s t e hq hcap hw]
    constructor
    · show (s.events ++ _).drop s.events.length = _
      rw [List.drop_left]
    · show handleResolution t.id ((s.events ++ _).drop s.events.length) = _
      rw [List.drop_left]
      exact handleResolution_throw_events t.id e
  · intro s t u rest e hq hw hcap hid
    have heq := proccessChannel_throws_eq s t (u :: rest) e hcap hq hw
    have hrem : removeTask t.id (s.channel.tasksInProgress ++ [t]) =
        s.channel.tasksInProgress :=
      removeTask_append_self t _ hid
    constructor
    · rw [heq]
    · rw [heq]
      rw [runTick_succ _ s.pendingTicks rfl]
      refine proccessChannel_starts_head _ u rest rfl ?_
      show ((removeTask t.id (s.channel.tasksInProgress ++ [t])).length : Int) <
        s.channel.concurrency
      rw [hrem]
      exact hcap
  · intro s tid t v e hf hw hp hs
    rw [settleTask_found_eq s tid t v hf hw hp]
    have hse : settlementEvent t = ChannelEvent.taskCompleted t.id false true e := by
      simp [settlementEvent, hs]
    constructor
    · show (s.events ++ _).drop s.events.length = _
      rw [List.drop_left, hse]
    · show handleResolution t.id ((s.events ++ _).drop s.events.length) = _
      rw [List.drop_left, hse]
      simp [handleResolution, resolveFromEvent]

/-- C4 witness: a concrete throwing task on a fresh channel resolves to the
`Failure` outcome carrying its error. -/
theorem task_failure_contained_witness :
    handleResolution 0
        ((addTaskToChannel (initState (some 1))
            ⟨0, 0, WorkResult.throws (JSValue.nonObject 7), Settlement.fulfilled JSValue.null,
              0, 0⟩).events.drop (initState (some 1)).events.length) =
      some (failureResult (JSValue.nonObject 7)) :=
  (task_failure_contained.1 (initState (some 1))
    ⟨0, 0, WorkResult.throws (JSValue.nonObject 7), Settlement.fulfilled JSValue.null, 0, 0⟩
    (JSValue.nonObject 7) rfl (by decide) rfl).2

/-! ### C9: thenables without both `then` and `catch` are not awaited -/

/-- C9: a value with a `then` member but no `catch` member (or vice versa) is
not recognised by `isPromise`, so a task returning such a value completes
synchronously inside the dispatch call with `isSuccess = true` and the
thenable object itself as the result, leaves the in-flight set as it was,
and schedules the next dispatch tick; only a value with both `then` and
`catch` functions counts as a promise. -/
theorem thenable_not_awaited :
    (∀ (sh : JSObject) (tag : Nat), sh.hasThen = false ∨ sh.hasCatch = false →
      isPromise (JSValue.obj sh tag) = false) ∧
    (∀ (sh : JSObject) (tag : Nat) (s : SchedState) (t : ChannelTask)
        (rest : List ChannelTask),
      sh.hasThen = false ∨ sh.hasCatch = false →
      s.channel.tasksInQueue = t :: rest →
      t.work = WorkResult.ret (JSValue.obj sh tag) →
      (s.channel.tasksInProgress.length : Int) < s.channel.concurrency →
      t.id ∉ idsOf s.channel.tasksInProgress →
      proccessChannel s =
        { channel := { concurrency := s.channel.concurrency
                       tasksInProgress := s.channel.tasksInProgress
                       tasksInQueue := rest }
          events := s.events ++ [ChannelEvent.taskStarted t.id,
            ChannelEvent.taskCompleted t.id true false (JSValue.obj sh tag)]
          pendingTicks := s.pendingTicks + 1 }) ∧
    isPromise (JSValue.obj ⟨true, true, true, true⟩ 0) = true := by
  have hnp : ∀ (sh : JSObject) (tag : Nat), sh.hasThen = false ∨ sh.hasCatch = false →
      isPromise (JSValue.obj sh tag) = false := by
    intro sh tag h
    rcases h with h | h <;>
      simp [isPromise, typeofIsObject, isNullValue, hasThenMember, hasCatchMember,
        thenMemberIsFunction, catchMemberIsFunction, h]
  refine ⟨hnp, ?_, rfl⟩
  intro sh tag s t rest h hq hw hcap hid
  rw [proccessChannel_sync_eq s t rest (JSValue.obj sh tag) hcap hq hw (hnp sh tag h)]
  rw [removeTask_append_self t _ hid]

/-- C9 witness: an object with a `then` function but no `catch` member is
completed synchronously as a success carrying the object itself. -/
theorem thenable_not_awaited_witness :
    proccessChannel
        ⟨⟨1, [],
          [⟨3, 3, WorkResult.ret (JSValue.obj ⟨true, false, true, false⟩ 9),
            Settlement.fulfilled JSValue.null, 0, 0⟩]⟩, [], 0⟩ =
      { channel := { concurrency := 1, tasksInProgress := [], tasksInQueue := [] }
        events := [ChannelEvent.taskStarted 3,
          ChannelEvent.taskCompleted 3 true false (JSValue.obj ⟨true, false, true, false⟩ 9)]
        pendingTicks := 1 } := by
  have h := thenable_not_awaited.2.1 ⟨true, false, true, false⟩ 9
    ⟨⟨1, [],
      [⟨3, 3, WorkResult.ret (JSValue.obj ⟨true, false, true, false⟩ 9),
        Settlement.fulfilled JSValue.null, 0, 0⟩]⟩, [], 0⟩
    ⟨3, 3, WorkResult.ret (JSValue.obj ⟨true, false, true, false⟩ 9),
      Settlement.fulfilled JSValue.null, 0, 0⟩
    [] (Or.inr rfl) rfl rfl (by decide) (by decide)
  simpa using h

/-! ### C10: cancelOne removes exactly the earliest matching queued task -/

theorem extractFirstByWorkRef_eq (w : Nat) :
    ∀ (pre : List ChannelTask) (t : ChannelTask) (post : List ChannelTask),
      (∀ u ∈ pre, u.workRef ≠ w) → t.workRef = w →
      extractFirstByWorkRef w (pre ++ t :: post) = some (t, pre ++ post)
  | [], t, post, _, ht => by simp [extractFirstByWorkRef, ht]
  | u :: us, t, post, hpre, ht => by
    have h1 : ¬ u.workRef = w := hpre u (List.mem_cons_self u us)
    have ih := extractFirstByWorkRef_eq w us t post
      (fun x hx => hpre x (List.mem_cons_of_mem u hx)) ht
    simp [extractFirstByWorkRef, h1, ih]

/-- C10: when the run queue is `pre ++ t :: post` with no task in `pre`
matching the given work reference and `t` matching it, `cancelChannelTask`
removes exactly `t` (the earliest match, the one that would dispatch first),
emits a single `TASK_CANCELLED` for it, and leaves the other queued tasks in
their original relative order and the in-flight set untouched — even when
`post` contains further tasks with the same work reference. -/
theorem cancelOne_earliest_match (s : SchedState) (w : Nat) (pre : List ChannelTask)
    (t : ChannelTask) (post : List ChannelTask)
    (hq : s.channel.tasksInQueue = pre ++ t :: post)
    (hpre : ∀ u ∈ pre, u.workRef ≠ w) (ht : t.workRef = w) :
    cancelChannelTask s w =
      { channel := { concurrency := s.channel.concurrency
                     tasksInProgress := s.channel.tasksInProgress
                     tasksInQueue := pre ++ post }
        events := s.events ++ [ChannelEvent.taskCancelled t.id]
        pendingTicks := s.pendingTicks } := by
  have he : extractFirstByWorkRef w s.channel.tasksInQueue = some (t, pre ++ post) := by
    rw [hq]
    exact extractFirstByWorkRef_eq w pre t post hpre ht
  exact cancelChannelTask_found_eq s w t (pre ++ post) he

/-- C10 witness: two queued tasks sharing work reference `5`; the earlier one
(id 1) is cancelled, the later duplicate (id 2) stays queued. -/
theorem cancelOne_earliest_match_witness :
    cancelChannelTask
        ⟨⟨1, [],
          [⟨1, 5, WorkResult.ret JSValue.null, Settlement.fulfilled JSValue.null, 0, 0⟩,
           ⟨2, 5, WorkResult.ret JSValue.null, Settlement.fulfilled JSValue.null, 0, 1⟩]⟩,
          [], 0⟩ 5 =
      { channel := { concurrency := 1, tasksInProgress := []
                     tasksInQueue :=
                       [⟨2, 5, WorkResult.ret JSValue.null, Settlement.fulfilled JSValue.null,
                         0, 1⟩] }
        events := [ChannelEvent.taskCancelled 1]
        pendingTicks := 0 } := by
  have h := cancelOne_earliest_match
    ⟨⟨1, [],
      [⟨1, 5, WorkResult.ret JSValue.null, Settlement.fulfilled JSValue.null, 0, 0⟩,
       ⟨2, 5, WorkResult.ret JSValue.null, Settlement.fulfilled JSValue.null, 0, 1⟩]⟩,
      [], 0⟩ 5 []
    ⟨1, 5, WorkResult.ret JSValue.null, Settlement.fulfilled JSValue.null, 0, 0⟩
    [⟨2, 5, WorkResult.ret JSValue.null, Settlement.fulfilled JSValue.null, 0, 1⟩]
    rfl (by simp) rfl
  simpa using h

/-! ### C5: per-task event lifecycle -/

/-- Terminal trace shapes: the events a task that is no longer held by the
scheduler can have received. -/
def doneTrace (tid : Nat) (es : List ChannelEvent) : Prop :=
  es = [] ∨
  (∃ (b c : Bool) (v : JSValue),
    es = [ChannelEvent.taskAdded tid, ChannelEvent.taskStarted tid,
          ChannelEvent.taskCompleted tid b c v]) ∨
  es = [ChannelEvent.taskAdded tid, ChannelEvent.taskCancelled tid]

/-- The admissible per-task traces: every proper initial segment of
`[TASK_ADDED, TASK_STARTED, TASK_COMPLETED]` or of
`[TASK_ADDED, TASK_CANCELLED]`. -/
def goodTrace (tid : Nat) (es : List ChannelEvent) : Prop :=
  es = [] ∨
  es = [ChannelEvent.taskAdded tid] ∨
  es = [ChannelEvent.taskAdded tid, ChannelEvent.taskStarted tid] ∨
  (∃ (b c : Bool) (v : JSValue),
    es = [ChannelEvent.taskAdded tid, ChannelEvent.taskStarted tid,
          ChannelEvent.taskCompleted tid b c v]) ∨
  es = [ChannelEvent.taskAdded tid, ChannelEvent.taskCancelled tid]

/-- Whether an event is a terminal event (`TASK_COMPLETED` or
`TASK_CANCELLED`) for the given task. -/
def isTerminalEvent (tid : Nat) : ChannelEvent → Bool
  | .taskCompleted i _ _ _ => i == tid
  | .taskCancelled i => i == tid
  | _ => false

/-- The scheduler invariant tying each task's position (queued, in flight,
or gone) to the events delivered for it so far. -/
structure Inv (s : SchedState) : Prop where
  nodup : (stateIds s).Nodup
  queued : ∀ t ∈ s.channel.tasksInQueue,
    eventsFor t.id s.events = [ChannelEvent.taskAdded t.id]
  inflight : ∀ t ∈ s.channel.tasksInProgress,
    eventsFor t.id s.events = [ChannelEvent.taskAdded t.id, ChannelEvent.taskStarted t.id]
  done : ∀ tid : Nat, tid ∉ stateIds s → doneTrace tid (eventsFor tid s.events)

theorem idsOf_cons (t : ChannelTask) (ts : List ChannelTask) :
    idsOf (t :: ts) = t.id :: idsOf ts := rfl

theorem idsOf_append (l l' : List ChannelTask) :
    idsOf (l ++ l') = idsOf l ++ idsOf l' := by
  simp [idsOf]

theorem id_mem_idsOf {t : ChannelTask} {l : List ChannelTask} (h : t ∈ l) :
    t.id ∈ idsOf l :=
  List.mem_map_of_mem _ h

theorem exists_of_mem_idsOf {tid : Nat} {l : List ChannelTask} (h : tid ∈ idsOf l) :
    ∃ t, t ∈ l ∧ t.id = tid := by
  simpa [idsOf] using List.mem_map.1 h

theorem eventsFor_append (tid : Nat) (es fs : List ChannelEvent) :
    eventsFor tid (es ++ fs) = eventsFor tid es ++ eventsFor tid fs := by
  simp [eventsFor]

theorem eventsFor_suffix_none (tid : Nat) (es fs : List ChannelEvent)
    (h : ∀ e ∈ fs, ¬ eventTaskId e = some tid) :
    eventsFor tid (es ++ fs) = eventsFor tid es := by
  rw [eventsFor_append]
  have hnil : eventsFor tid fs = [] := by
    simp only [eventsFor, List.filter_eq_nil_iff]
    intro a ha
    simpa using h a ha
  rw [hnil, List.append_nil]

theorem eventsFor_suffix_all (tid : Nat) (es fs : List ChannelEvent)
    (h : ∀ e ∈ fs, eventTaskId e = some tid) :
    eventsFor tid (es ++ fs) = eventsFor tid es ++ fs := by
  rw [eventsFor_append]
  congr 1
  rw [eventsFor, List.filter_eq_self]
  intro a ha
  simpa using h a ha

theorem removeTask_sublist (tid : Nat) :
    ∀ (l : List ChannelTask), (removeTask tid l).Sublist l
  | [] => List.Sublist.refl []
  | t :: ts => by
    by_cases h : t.id = tid
    · simp only [removeTask, if_pos h]
      exact List.sublist_cons_self t ts
    · simp only [removeTask, if_neg h]
      exact List.Sublist.cons₂ t (removeTask_sublist tid ts)

theorem mem_removeTask_of_ne (tid : Nat) (u : ChannelTask) :
    ∀ (l : List ChannelTask), u ∈ l → ¬ u.id = tid → u ∈ removeTask tid l
  | [], hu, _ => absurd hu (List.not_mem_nil u)
  | t :: ts, hu, hne => by
    by_cases h : t.id = tid
    · simp only [removeTask, if_pos h]
      rcases List.mem_cons.1 hu with rfl | hu'
      · exact absurd h hne
      · exact hu'
    · simp only [removeTask, if_neg h]
      rcases List.mem_cons.1 hu with rfl | hu'
      · exact List.mem_cons_self _ _
      · exact List.mem_cons_of_mem _ (mem_removeTask_of_ne tid u ts hu' hne)

theorem not_mem_idsOf_removeTask (tid : Nat) :
    ∀ (l : List ChannelTask), (idsOf l).Nodup → tid ∉ idsOf (removeTask tid l)
  | [], _ => by simp [removeTask, idsOf]
  | t :: ts, h => by
    rw [idsOf_cons] at h
    have hn : (idsOf ts).Nodup := (List.nodup_cons.1 h).2
    by_cases he : t.id = tid
    · simp only [removeTask, if_pos he]
      have h1 : t.id ∉ idsOf ts := (List.nodup_cons.1 h).1
      rw [he] at h1
      exact h1
    · simp only [removeTask, if_neg he, idsOf_cons, List.mem_cons]
      push_neg
      exact ⟨fun hh => he hh.symm, not_mem_idsOf_removeTask tid ts hn⟩

theorem eventsFor_suffix_of_ids (tid tid' : Nat) (hne : ¬ tid' = tid)
    (es fs : List ChannelEvent) (hfs : ∀ e ∈ fs, eventTaskId e = some tid') :
    eventsFor tid (es ++ fs) = eventsFor tid es := by
  apply eventsFor_suffix_none
  intro e he heq
  rw [hfs e he] at heq
  exact hne (Option.some.inj heq)

theorem suffix_ids_SC (tid' : Nat) (b c : Bool) (v : JSValue) :
    ∀ e ∈ [ChannelEvent.taskStarted tid', ChannelEvent.taskCompleted tid' b c v],
      eventTaskId e = some tid' := by
  intro e he
  simp only [List.mem_cons, List.not_mem_nil, or_false] at he
  rcases he with rfl | rfl <;> rfl

theorem suffix_ids_S (tid' : Nat) :
    ∀ e ∈ [ChannelEvent.taskStarted tid'], eventTaskId e = some tid' := by
  intro e he
  simp only [List.mem_cons, List.not_mem_nil, or_false] at he
  rcases he with rfl
  rfl

theorem suffix_ids_C (tid' : Nat) (b c : Bool) (v : JSValue) :
    ∀ e ∈ [ChannelEvent.taskCompleted tid' b c v], eventTaskId e = some tid' := by
  intro e he
  simp only [List.mem_cons, List.not_mem_nil, or_false] at he
  rcases he with rfl
  rfl

theorem suffix_ids_X (tid' : Nat) :
    ∀ e ∈ [ChannelEvent.taskCancelled tid'], eventTaskId e = some tid' := by
  intro e he
  simp only [List.mem_cons, List.not_mem_nil, or_false] at he
  rcases he with rfl
  rfl

theorem suffix_ids_A (tid' : Nat) :
    ∀ e ∈ [ChannelEvent.taskAdded tid'], eventTaskId e = some tid' := by
  intro e he
  simp only [List.mem_cons, List.not_mem_nil, or_false] at he
  rcases he with rfl
  rfl

theorem nodup_head_decomp (s : SchedState) (t : ChannelTask) (rest : List ChannelTask)
    (hq : s.channel.tasksInQueue = t :: rest) (hnd : (stateIds s).Nodup) :
    t.id ∉ idsOf rest ∧ t.id ∉ idsOf s.channel.tasksInProgress ∧
    (idsOf rest ++ idsOf s.channel.tasksInProgress).Nodup := by
  have hnd' : (t.id :: (idsOf rest ++ idsOf s.channel.tasksInProgress)).Nodup := by
    simpa [stateIds, hq, idsOf_cons] using hnd
  have h1 := List.nodup_cons.1 hnd'
  refine ⟨?_, ?_, h1.2⟩
  · intro hm
    exact h1.1 (List.mem_append.2 (Or.inl hm))
  · intro hm
    exact h1.1 (List.mem_append.2 (Or.inr hm))

theorem mem_stateIds_cases (s : SchedState) (t : ChannelTask) (rest : List ChannelTask)
    (hq : s.channel.tasksInQueue = t :: rest) (tid : Nat) (hm : tid ∈ stateIds s) :
    tid = t.id ∨ tid ∈ idsOf rest ++ idsOf s.channel.tasksInProgress := by
  have h : tid ∈ t.id :: (idsOf rest ++ idsOf s.channel.tasksInProgress) := by
    simpa [stateIds, hq, idsOf_cons] using hm
  simpa using h

theorem not_mem_stateIds_of_no_events (s : SchedState) (h : Inv s) (tid : Nat)
    (he : eventsFor tid s.events = []) : tid ∉ stateIds s := by
  intro hm
  rcases List.mem_append.1 (by simpa [stateIds] using hm) with hm' | hm'
  · obtain ⟨u, hu, hid⟩ := exists_of_mem_idsOf hm'
    have hq := h.queued u hu
    rw [hid, he] at hq
    exact List.cons_ne_nil _ _ hq.symm
  · obtain ⟨u, hu, hid⟩ := exists_of_mem_idsOf hm'
    have hq := h.inflight u hu
    rw [hid, he] at hq
    exact List.cons_ne_nil _ _ hq.symm

theorem proccessChannel_inv (s : SchedState) (h : Inv s) : Inv (proccessChannel s) := by
  by_cases hcap : s.channel.concurrency ≤ (s.channel.tasksInProgress.length : Int)
  · rw [proccessChannel_at_capacity s hcap]
    exact h
  · push_neg at hcap
    match hq : s.channel.tasksInQueue with
    | [] =>
      rw [proccessChannel_queue_nil s hq]
      exact h
    | t :: rest =>
      obtain ⟨hn1, hn2, hn3⟩ := nodup_head_decomp s t rest hq h.nodup
      have hqe : eventsFor t.id s.events = [ChannelEvent.taskAdded t.id] :=
        h.queued t (by rw [hq]; exact List.mem_cons_self t rest)
      have hmemq : ∀ u ∈ rest, u ∈ s.channel.tasksInQueue := by
        intro u hu
        rw [hq]
        exact List.mem_cons_of_mem t hu
      have hneq : ∀ u ∈ rest, ¬ t.id = u.id := by
        intro u hu hh
        exact hn1 (hh.symm ▸ id_mem_idsOf hu)
      have hnep : ∀ u ∈ s.channel.tasksInProgress, ¬ t.id = u.id := by
        intro u hu hh
        exact hn2 (hh.symm ▸ id_mem_idsOf hu)
      match hw : t.work with
      | .throws e =>
        rw [proccessChannel_throws_eq s t rest e hcap hq hw,
          removeTask_append_self t _ hn2]
        refine ⟨?_, ?_, ?_, ?_⟩
        · show (idsOf rest ++ idsOf s.channel.tasksInProgress).Nodup
          exact hn3
        · intro u hu
          show eventsFor u.id (s.events ++ [ChannelEvent.taskStarted t.id,
            ChannelEvent.taskCompleted t.id false true e]) = [ChannelEvent.taskAdded u.id]
          rw [eventsFor_suffix_of_ids u.id t.id (hneq u hu) s.events _
            (suffix_ids_SC t.id false true e)]
          exact h.queued u (hmemq u hu)
        · intro u hu
          show eventsFor u.id (s.events ++ [ChannelEvent.taskStarted t.id,
            ChannelEvent.taskCompleted t.id false true e]) =
            [ChannelEvent.taskAdded u.id, ChannelEvent.taskStarted u.id]
          rw [eventsFor_suffix_of_ids u.id t.id (hnep u hu) s.events _
            (suffix_ids_SC t.id false true e)]
          exact h.inflight u hu
        · intro tid hnot
          have hnot' : tid ∉ idsOf rest ++ idsOf s.channel.tasksInProgress := hnot
          show doneTrace tid (eventsFor tid (s.events ++ [ChannelEvent.taskStarted t.id,
            ChannelEvent.taskCompleted t.id false true e]))
          by_cases ht : tid = t.id
          · subst ht
            rw [eventsFor_suffix_all t.id s.events _ (suffix_ids_SC t.id false true e), hqe]
            exact Or.inr (Or.inl ⟨false, true, e, rfl⟩)
          · have hts : tid ∉ stateIds s := fun hm =>
              (mem_stateIds_cases s t rest hq tid hm).elim ht hnot'
            rw [eventsFor_suffix_of_ids tid t.id (fun hh => ht hh.symm) s.events _
              (suffix_ids_SC t.id false true e)]
            exact h.done tid hts
      | .ret v =>
        by_cases hp : isPromise v = true
        · rw [proccessChannel_promise_eq s t rest v hcap hq hw hp]
          refine ⟨?_, ?_, ?_, ?_⟩
          · show (idsOf rest ++ idsOf (s.channel.tasksInProgress ++ [t])).Nodup
            rw [idsOf_append]
            have p1 : List.Perm (idsOf s.channel.tasksInProgress ++ idsOf [t])
                (t.id :: idsOf s.channel.tasksInProgress) :=
              List.perm_append_singleton t.id (idsOf s.channel.tasksInProgress)
            have p2 := p1.append_left (idsOf rest)
            have p3 : List.Perm (idsOf rest ++ (t.id :: idsOf s.channel.tasksInProgress))
                (t.id :: (idsOf rest ++ idsOf s.channel.tasksInProgress)) :=
              List.perm_middle
            have hR : (t.id :: (idsOf rest ++ idsOf s.channel.tasksInProgress)).Nodup := by
              refine List.nodup_cons.2 ⟨?_, hn3⟩
              intro hm
              rcases List.mem_append.1 hm with hm | hm
              · exact hn1 hm
              · exact hn2 hm
            exact ((p2.trans p3).symm).nodup hR
          · intro u hu
            show eventsFor u.id (s.events ++ [ChannelEvent.taskStarted t.id]) =
              [ChannelEvent.taskAdded u.id]
            rw [eventsFor_suffix_of_ids u.id t.id (hneq u hu) s.events _
              (suffix_ids_S t.id)]
            exact h.queued u (hmemq u hu)
          · intro u hu
            show eventsFor u.id (s.events ++ [ChannelEvent.taskStarted t.id]) =
              [ChannelEvent.taskAdded u.id, ChannelEvent.taskStarted u.id]
            rcases List.mem_append.1 hu with hu' | hu'
            · rw [eventsFor_suffix_of_ids u.id t.id (hnep u hu') s.events _
                (suffix_ids_S t.id)]
              exact h.inflight u hu'
            · have : u = t := by
                simpa using hu'
              subst this
              rw [eventsFor_suffix_all u.id s.events _ (suffix_ids_S u.id), hqe]
              rfl
          · intro tid hnot
            have hnot' : tid ∉ idsOf rest ++ idsOf (s.channel.tasksInProgress ++ [t]) := hnot
            have htne : ¬ tid = t.id := by
              intro hh
              apply hnot'
              apply List.mem_append.2
              right
              rw [idsOf_append, hh]
              exact List.mem_append.2 (Or.inr (by simp [idsOf]))
            show doneTrace tid (eventsFor tid (s.events ++ [ChannelEvent.taskStarted t.id]))
            have hts : tid ∉ stateIds s := by
              intro hm
              rcases mem_stateIds_cases s t rest hq tid hm with hh | hh
              · exact htne hh
              · rcases List.mem_append.1 hh with hh' | hh'
                · exact hnot' (List.mem_append.2 (Or.inl hh'))
                · exact hnot' (List.mem_append.2 (Or.inr
                    (by rw [idsOf_append]; exact List.mem_append.2 (Or.inl hh'))))
            rw [eventsFor_suffix_of_ids tid t.id (fun hh => htne hh.symm) s.events _
              (suffix_ids_S t.id)]
            exact h.done tid hts
        · have hp' : isPromise v = false := by simpa using hp
          rw [proccessChannel_sync_eq s t rest v hcap hq hw hp',
            removeTask_append_self t _ hn2]
          refine ⟨?_, ?_, ?_, ?_⟩
          · show (idsOf rest ++ idsOf s.channel.tasksInProgress).Nodup
            exact hn3
          · intro u hu
            show eventsFor u.id (s.events ++ [ChannelEvent.taskStarted t.id,
              ChannelEvent.taskCompleted t.id true false v]) = [ChannelEvent.taskAdded u.id]
            rw [eventsFor_suffix_of_ids u.id t.id (hneq u hu) s.events _
              (suffix_ids_SC t.id true false v)]
            exact h.queued u (hmemq u hu)
          · intro u hu
            show eventsFor u.id (s.events ++ [ChannelEvent.taskStarted t.id,
              ChannelEvent.taskCompleted t.id true false v]) =
              [ChannelEvent.taskAdded u.id, ChannelEvent.taskStarted u.id]
            rw [eventsFor_suffix_of_ids u.id t.id (hnep u hu) s.events _
              (suffix_ids_SC t.id true false v)]
            exact h.inflight u hu
          · intro tid hnot
            have hnot' : tid ∉ idsOf rest ++ idsOf s.channel.tasksInProgress := hnot
            show doneTrace tid (eventsFor tid (s.events ++ [ChannelEvent.taskStarted t.id,
              ChannelEvent.taskCompleted t.id true false v]))
            by_cases ht : tid = t.id
            · subst ht
              rw [eventsFor_suffix_all t.id s.events _ (suffix_ids_SC t.id true false v), hqe]
              exact Or.inr (Or.inl ⟨true, false, v, rfl⟩)
            · have hts : tid ∉ stateIds s := fun hm =>
                (mem_stateIds_cases s t rest hq tid hm).elim ht hnot'
              rw [eventsFor_suffix_of_ids tid t.id (fun hh => ht hh.symm) s.events _
                (suffix_ids_SC t.id true false v)]
              exact h.done tid hts

theorem suffix_ids_settle (t : ChannelTask) :
    ∀ e ∈ [settlementEvent t], eventTaskId e = some t.id := by
  intro e he
  simp only [List.mem_cons, List.not_mem_nil, or_false] at he
  subst he
  cases hs : t.settlement <;> simp [settlementEvent, hs, eventTaskId]

theorem settlementEvent_shape (t : ChannelTask) :
    ∃ (b c : Bool) (v : JSValue),
      settlementEvent t = ChannelEvent.taskCompleted t.id b c v := by
  cases hs : t.settlement with
  | fulfilled w => exact ⟨true, false, w, by simp [settlementEvent, hs]⟩
  | rejected e => exact ⟨false, true, e, by simp [settlementEvent, hs]⟩

theorem settleTask_inv (s : SchedState) (tid : Nat) (h : Inv s) :
    Inv (settleTask s tid) := by
  match hf : s.channel.tasksInProgress.find? (fun x => x.id = tid) with
  | none =>
    rw [settleTask_not_found s tid hf]
    exact h
  | some t =>
    have hmem : t ∈ s.channel.tasksInProgress := List.mem_of_find?_eq_some hf
    match hw : t.work with
    | .throws e =>
      unfold settleTask
      rw [hf]
      dsimp only
      rw [hw]
      exact h
    | .ret v =>
      by_cases hp : isPromise v = true
      · rw [settleTask_found_eq s tid t v hf hw hp]
        have hpn : (idsOf s.channel.tasksInProgress).Nodup := by
          have hx : (idsOf s.channel.tasksInQueue ++
              idsOf s.channel.tasksInProgress).Nodup := by
            simpa [stateIds] using h.nodup
          exact hx.of_append_right
        have hdisj : List.Disjoint (idsOf s.channel.tasksInQueue)
            (idsOf s.channel.tasksInProgress) :=
          List.disjoint_of_nodup_append (by simpa [stateIds] using h.nodup)
        have htq : t.id ∉ idsOf s.channel.tasksInQueue := by
          intro hm
          exact hdisj hm (id_mem_idsOf hmem)
        have hife : eventsFor t.id s.events =
            [ChannelEvent.taskAdded t.id, ChannelEvent.taskStarted t.id] :=
          h.inflight t hmem
        have hnr : t.id ∉ idsOf (removeTask t.id s.channel.tasksInProgress) :=
          not_mem_idsOf_removeTask t.id _ hpn
        refine ⟨?_, ?_, ?_, ?_⟩
        · show (idsOf s.channel.tasksInQueue ++
            idsOf (removeTask t.id s.channel.tasksInProgress)).Nodup
          have hsub : (idsOf s.channel.tasksInQueue ++
              idsOf (removeTask t.id s.channel.tasksInProgress)).Sublist
              (idsOf s.channel.tasksInQueue ++ idsOf s.channel.tasksInProgress) :=
            List.Sublist.append_left
              (List.Sublist.map (·.id) (removeTask_sublist t.id _)) _
          exact hsub.nodup (by simpa [stateIds] using h.nodup)
        · intro u hu
          have hne : ¬ t.id = u.id := fun hh => htq (hh.symm ▸ id_mem_idsOf hu)
          show eventsFor u.id (s.events ++ [settlementEvent t]) =
            [ChannelEvent.taskAdded u.id]
          rw [eventsFor_suffix_of_ids u.id t.id hne s.events _ (suffix_ids_settle t)]
          exact h.queued u hu
        · intro u hu
          have hu2 : u ∈ removeTask t.id s.channel.tasksInProgress := hu
          have hu' : u ∈ s.channel.tasksInProgress :=
            (removeTask_sublist t.id _).subset hu2
          have hne : ¬ t.id = u.id := by
            intro hh
            apply hnr
            have hm := id_mem_idsOf hu2
            rw [← hh] at hm
            exact hm
          show eventsFor u.id (s.events ++ [settlementEvent t]) =
            [ChannelEvent.taskAdded u.id, ChannelEvent.taskStarted u.id]
          rw [eventsFor_suffix_of_ids u.id t.id hne s.events _ (suffix_ids_settle t)]
          exact h.inflight u hu'
        · intro tid' hnot
          have hnot' : tid' ∉ idsOf s.channel.tasksInQueue ++
              idsOf (removeTask t.id s.channel.tasksInProgress) := hnot
          show doneTrace tid' (eventsFor tid' (s.events ++ [settlementEvent t]))
          by_cases ht : tid' = t.id
          · subst ht
            rw [eventsFor_suffix_all t.id s.events _ (suffix_ids_settle t), hife]
            obtain ⟨b, c, v', hbc⟩ := settlementEvent_shape t
            rw [hbc]
            exact Or.inr (Or.inl ⟨b, c, v', rfl⟩)
          · have hts : tid' ∉ stateIds s := by
              intro hm
              rcases List.mem_append.1 (by simpa [stateIds] using hm) with hm' | hm'
              · exact hnot' (List.mem_append.2 (Or.inl hm'))
              · obtain ⟨u, hu, hid⟩ := exists_of_mem_idsOf hm'
                have hune : ¬ u.id = t.id := by
                  rw [hid]
                  exact ht
                have : u ∈ removeTask t.id s.channel.tasksInProgress :=
                  mem_removeTask_of_ne t.id u _ hu hune
                exact hnot' (List.mem_append.2 (Or.inr (hid ▸ id_mem_idsOf this)))
            rw [eventsFor_suffix_of_ids tid' t.id (fun hh => ht hh.symm) s.events _
              (suffix_ids_settle t)]
            exact h.done tid' hts
      · unfold settleTask
        rw [hf]
        dsimp only
        rw [hw]
        dsimp only
        rw [if_neg hp]
        exact h

theorem eventsFor_singleton_eq (tid : Nat) (e : ChannelEvent)
    (h : eventTaskId e = some tid) : eventsFor tid [e] = [e] := by
  simp [eventsFor, h]

theorem eventsFor_singleton_ne (tid : Nat) (e : ChannelEvent)
    (h : ¬ eventTaskId e = some tid) : eventsFor tid [e] = [] := by
  simp [eventsFor, h]

theorem eventsFor_cancelled_map (tid : Nat) :
    ∀ (l : List ChannelTask), (idsOf l).Nodup →
      eventsFor tid (l.map (fun u => ChannelEvent.taskCancelled u.id)) =
        if tid ∈ idsOf l then [ChannelEvent.taskCancelled tid] else []
  | [], _ => by simp [eventsFor, idsOf]
  | u :: us, h => by
    rw [idsOf_cons] at h
    have hn := List.nodup_cons.1 h
    have ih := eventsFor_cancelled_map tid us hn.2
    have hx : (u :: us).map (fun x => ChannelEvent.taskCancelled x.id) =
        [ChannelEvent.taskCancelled u.id] ++
          us.map (fun x => ChannelEvent.taskCancelled x.id) := rfl
    rw [hx, eventsFor_append]
    by_cases hu : u.id = tid
    · have hnm : tid ∉ idsOf us := by
        rw [← hu]
        exact hn.1
      rw [if_neg hnm] at ih
      rw [eventsFor_singleton_eq tid _ (by simp [eventTaskId, hu]), ih,
        if_pos (by rw [idsOf_cons]; exact List.mem_cons.2 (Or.inl hu.symm)), hu]
      rfl
    · rw [eventsFor_singleton_ne tid _ (by simp [eventTaskId, hu])]
      by_cases hm : tid ∈ idsOf us
      · rw [if_pos hm] at ih
        rw [ih, if_pos (by rw [idsOf_cons]; exact List.mem_cons_of_mem _ hm)]
        rfl
      · rw [if_neg hm] at ih
        rw [ih, if_neg ?hni]
        · rfl
        case hni =>
          rw [idsOf_cons]
          intro hc
          rcases List.mem_cons.1 hc with hc | hc
          · exact hu hc.symm
          · exact hm hc

theorem cancelAll_inv (s : SchedState) (h : Inv s) : Inv (cancelAllChannelTasks s) := by
  rw [cancelAllChannelTasks_eq s]
  have hall : (idsOf s.channel.tasksInQueue ++ idsOf s.channel.tasksInProgress).Nodup := by
    simpa [stateIds] using h.nodup
  have hqn : (idsOf s.channel.tasksInQueue).Nodup := hall.of_append_left
  have hdisj : List.Disjoint (idsOf s.channel.tasksInQueue)
      (idsOf s.channel.tasksInProgress) :=
    List.disjoint_of_nodup_append hall
  have hsfx : ∀ tid : Nat,
      eventsFor tid (s.events ++ ChannelEvent.cancelledAllTasks ::
        s.channel.tasksInQueue.map (fun u => ChannelEvent.taskCancelled u.id)) =
      eventsFor tid s.events ++
        (if tid ∈ idsOf s.channel.tasksInQueue
         then [ChannelEvent.taskCancelled tid] else []) := by
    intro tid
    have hsplit : ChannelEvent.cancelledAllTasks ::
        s.channel.tasksInQueue.map (fun u => ChannelEvent.taskCancelled u.id) =
        [ChannelEvent.cancelledAllTasks] ++
          s.channel.tasksInQueue.map (fun u => ChannelEvent.taskCancelled u.id) := rfl
    rw [hsplit, ← List.append_assoc, eventsFor_append, eventsFor_append,
      eventsFor_singleton_ne tid _ (by simp [eventTaskId]),
      eventsFor_cancelled_map tid _ hqn, List.append_nil]
  refine ⟨?_, ?_, ?_, ?_⟩
  · show (idsOf ([] : List ChannelTask) ++ idsOf s.channel.tasksInProgress).Nodup
    simpa [idsOf] using hall.of_append_right
  · intro u hu
    exact absurd hu (List.not_mem_nil u)
  · intro u hu
    have hu2 : u ∈ s.channel.tasksInProgress := hu
    show eventsFor u.id (s.events ++ ChannelEvent.cancelledAllTasks ::
      s.channel.tasksInQueue.map (fun x => ChannelEvent.taskCancelled x.id)) =
      [ChannelEvent.taskAdded u.id, ChannelEvent.taskStarted u.id]
    rw [hsfx u.id, if_neg (fun hm => hdisj hm (id_mem_idsOf hu2)), List.append_nil]
    exact h.inflight u hu2
  · intro tid hnot
    have hnot' : tid ∉ idsOf ([] : List ChannelTask) ++
        idsOf s.channel.tasksInProgress := hnot
    have hnp : tid ∉ idsOf s.channel.tasksInProgress := by
      intro hm
      exact hnot' (List.mem_append.2 (Or.inr hm))
    show doneTrace tid (eventsFor tid (s.events ++ ChannelEvent.cancelledAllTasks ::
      s.channel.tasksInQueue.map (fun x => ChannelEvent.taskCancelled x.id)))
    rw [hsfx tid]
    by_cases hq : tid ∈ idsOf s.channel.tasksInQueue
    · obtain ⟨u, hu, hid⟩ := exists_of_mem_idsOf hq
      have he : eventsFor tid s.events = [ChannelEvent.taskAdded tid] := by
        rw [← hid]
        exact h.queued u hu
      rw [if_pos hq, he]
      exact Or.inr (Or.inr rfl)
    · have hts : tid ∉ stateIds s := by
        intro hm
        rcases List.mem_append.1 (by simpa [stateIds] using hm) with hm' | hm'
        · exact hq hm'
        · exact hnp hm'
      rw [if_neg hq, List.append_nil]
      exact h.done tid hts

theorem extractFirstByWorkRef_decomp (w : Nat) :
    ∀ (l : List ChannelTask) (t : ChannelTask) (q' : List ChannelTask),
      extractFirstByWorkRef w l = some (t, q') →
      ∃ pre post, l = pre ++ t :: post ∧ q' = pre ++ post
  | [], t, q', h => by simp [extractFirstByWorkRef] at h
  | u :: us, t, q', h => by
    by_cases hu : u.workRef = w
    · rw [extractFirstByWorkRef, if_pos hu] at h
      obtain ⟨rfl, rfl⟩ : u = t ∧ us = q' := by
        simpa using h
      exact ⟨[], us, rfl, rfl⟩
    · rw [extractFirstByWorkRef, if_neg hu] at h
      match he : extractFirstByWorkRef w us with
      | none =>
        rw [he] at h
        simp at h
      | some (t', q₂) =>
        rw [he] at h
        obtain ⟨rfl, rfl⟩ : t' = t ∧ u :: q₂ = q' := by
          simpa using h
        obtain ⟨pre, post, hl, hq2⟩ := extractFirstByWorkRef_decomp w us t' q₂ he
        exact ⟨u :: pre, post, by rw [List.cons_append, ← hl],
          by rw [List.cons_append, ← hq2]⟩

theorem cancelOne_inv (s : SchedState) (w : Nat) (h : Inv s) :
    Inv (cancelChannelTask s w) := by
  match he : extractFirstByWorkRef w s.channel.tasksInQueue with
  | none =>
    rw [cancelChannelTask_not_found s w he]
    exact h
  | some (t, q') =>
    obtain ⟨pre, post, hl, hq'⟩ := extractFirstByWorkRef_decomp w _ t q' he
    rw [cancelChannelTask_found_eq s w t q' he]
    subst hq'
    have hall : (idsOf s.channel.tasksInQueue ++
        idsOf s.channel.tasksInProgress).Nodup := by
      simpa [stateIds] using h.nodup
    have hdisj : List.Disjoint (idsOf s.channel.tasksInQueue)
        (idsOf s.channel.tasksInProgress) :=
      List.disjoint_of_nodup_append hall
    have htmem : t ∈ s.channel.tasksInQueue := by
      rw [hl]
      exact List.mem_append.2 (Or.inr (List.mem_cons_self t post))
    have hte : eventsFor t.id s.events = [ChannelEvent.taskAdded t.id] :=
      h.queued t htmem
    have hqperm : List.Perm (idsOf s.channel.tasksInQueue)
        (t.id :: (idsOf pre ++ idsOf post)) := by
      rw [hl, idsOf_append, idsOf_cons]
      exact List.perm_middle
    have hqn : (t.id :: (idsOf pre ++ idsOf post)).Nodup :=
      hqperm.nodup hall.of_append_left
    have htpp : t.id ∉ idsOf pre ++ idsOf post := (List.nodup_cons.1 hqn).1
    have hmempp : ∀ u, u ∈ pre ++ post → u ∈ s.channel.tasksInQueue := by
      intro u hu
      rw [hl]
      rcases List.mem_append.1 hu with hu | hu
      · exact List.mem_append.2 (Or.inl hu)
      · exact List.mem_append.2 (Or.inr (List.mem_cons_of_mem t hu))
    refine ⟨?_, ?_, ?_, ?_⟩
    · show (idsOf (pre ++ post) ++ idsOf s.channel.tasksInProgress).Nodup
      have hperm2 : List.Perm
          (idsOf s.channel.tasksInQueue ++ idsOf s.channel.tasksInProgress)
          (t.id :: (idsOf (pre ++ post) ++ idsOf s.channel.tasksInProgress)) := by
        rw [hl, idsOf_append, idsOf_cons, idsOf_append, List.append_assoc,
          List.cons_append]
        have := @List.perm_middle Nat t.id (idsOf pre)
          (idsOf post ++ idsOf s.channel.tasksInProgress)
        rw [List.append_assoc]
        exact this
      have h2 := hperm2.nodup hall
      exact (List.nodup_cons.1 h2).2
    · intro u hu
      have hu2 : u ∈ pre ++ post := hu
      have hne : ¬ t.id = u.id := by
        intro hh
        apply htpp
        have hm : u.id ∈ idsOf pre ++ idsOf post := by
          rw [← idsOf_append]
          exact id_mem_idsOf hu2
        rw [← hh] at hm
        exact hm
      show eventsFor u.id (s.events ++ [ChannelEvent.taskCancelled t.id]) =
        [ChannelEvent.taskAdded u.id]
      rw [eventsFor_suffix_of_ids u.id t.id hne s.events _ (suffix_ids_X t.id)]
      exact h.queued u (hmempp u hu2)
    · intro u hu
      have hu2 : u ∈ s.channel.tasksInProgress := hu
      have hne : ¬ t.id = u.id := by
        intro hh
        apply hdisj (id_mem_idsOf htmem)
        rw [hh]
        exact id_mem_idsOf hu2
      show eventsFor u.id (s.events ++ [ChannelEvent.taskCancelled t.id]) =
        [ChannelEvent.taskAdded u.id, ChannelEvent.taskStarted u.id]
      rw [eventsFor_suffix_of_ids u.id t.id hne s.events _ (suffix_ids_X t.id)]
      exact h.inflight u hu2
    · intro tid hnot
      have hnot' : tid ∉ idsOf (pre ++ post) ++ idsOf s.channel.tasksInProgress := hnot
      show doneTrace tid (eventsFor tid (s.events ++ [ChannelEvent.taskCancelled t.id]))
      by_cases ht : tid = t.id
      · subst ht
        rw [eventsFor_suffix_all t.id s.events _ (suffix_ids_X t.id), hte]
        exact Or.inr (Or.inr rfl)
      · have hts : tid ∉ stateIds s := by
          intro hm
          rcases List.mem_append.1 (by simpa [stateIds] using hm) with hm' | hm'
          · have : tid ∈ t.id :: (idsOf pre ++ idsOf post) := hqperm.subset hm'
            rcases List.mem_cons.1 this with hh | hh
            · exact ht hh
            · exact hnot' (List.mem_append.2 (Or.inl (by rw [idsOf_append]; exact hh)))
          · exact hnot' (List.mem_append.2 (Or.inr hm'))
        rw [eventsFor_suffix_of_ids tid t.id (fun hh => ht hh.symm) s.events _
          (suffix_ids_X t.id)]
        exact h.done tid hts

theorem addTask_inv (s : SchedState) (t : ChannelTask) (h : Inv s)
    (hfresh : eventsFor t.id s.events = []) : Inv (addTaskToChannel s t) := by
  have hts : t.id ∉ stateIds s := not_mem_stateIds_of_no_events s h t.id hfresh
  show Inv (proccessChannel
    ⟨⟨s.channel.concurrency, s.channel.tasksInProgress,
      (s.channel.tasksInQueue ++ [t]).mergeSort queueLE⟩,
      s.events ++ [ChannelEvent.taskAdded t.id], s.pendingTicks⟩)
  apply proccessChannel_inv
  have hne_of_nonempty : ∀ u : ChannelTask, eventsFor u.id s.events ≠ [] →
      ¬ t.id = u.id := by
    intro u hu hh
    apply hu
    rw [← hh]
    exact hfresh
  refine ⟨?_, ?_, ?_, ?_⟩
  · show (idsOf ((s.channel.tasksInQueue ++ [t]).mergeSort queueLE) ++
      idsOf s.channel.tasksInProgress).Nodup
    have pm : List.Perm (idsOf ((s.channel.tasksInQueue ++ [t]).mergeSort queueLE))
        (idsOf (s.channel.tasksInQueue ++ [t])) := by
      unfold idsOf
      exact (List.mergeSort_perm (s.channel.tasksInQueue ++ [t]) queueLE).map _
    have p0 : List.Perm (idsOf (s.channel.tasksInQueue ++ [t]))
        (t.id :: idsOf s.channel.tasksInQueue) := by
      rw [idsOf_append]
      exact List.perm_append_singleton t.id _
    have p1 := (pm.trans p0).append_right (idsOf s.channel.tasksInProgress)
    have p2 : List.Perm ((t.id :: idsOf s.channel.tasksInQueue) ++
        idsOf s.channel.tasksInProgress)
        (t.id :: (idsOf s.channel.tasksInQueue ++ idsOf s.channel.tasksInProgress)) := by
      rw [List.cons_append]
    have hR : (t.id :: (idsOf s.channel.tasksInQueue ++
        idsOf s.channel.tasksInProgress)).Nodup := by
      refine List.nodup_cons.2 ⟨?_, by simpa [stateIds] using h.nodup⟩
      intro hm
      exact hts (by simpa [stateIds] using hm)
    exact ((p1.trans p2).symm).nodup hR
  · intro u hu
    have hu2 : u ∈ (s.channel.tasksInQueue ++ [t]).mergeSort queueLE := hu
    have hu3 : u ∈ s.channel.tasksInQueue ++ [t] := List.mem_mergeSort.1 hu2
    show eventsFor u.id (s.events ++ [ChannelEvent.taskAdded t.id]) =
      [ChannelEvent.taskAdded u.id]
    rcases List.mem_append.1 hu3 with hu' | hu'
    · have hne : ¬ t.id = u.id :=
        hne_of_nonempty u (by rw [h.queued u hu']; exact List.cons_ne_nil _ _)
      rw [eventsFor_suffix_of_ids u.id t.id hne s.events _ (suffix_ids_A t.id)]
      exact h.queued u hu'
    · have hut : u = t := by simpa using hu'
      subst hut
      rw [eventsFor_suffix_all u.id s.events _ (suffix_ids_A u.id), hfresh]
      rfl
  · intro u hu
    have hu2 : u ∈ s.channel.tasksInProgress := hu
    have hne : ¬ t.id = u.id :=
      hne_of_nonempty u (by rw [h.inflight u hu2]; exact List.cons_ne_nil _ _)
    show eventsFor u.id (s.events ++ [ChannelEvent.taskAdded t.id]) =
      [ChannelEvent.taskAdded u.id, ChannelEvent.taskStarted u.id]
    rw [eventsFor_suffix_of_ids u.id t.id hne s.events _ (suffix_ids_A t.id)]
    exact h.inflight u hu2
  · intro tid hnot
    have hnot' : tid ∉ idsOf ((s.channel.tasksInQueue ++ [t]).mergeSort queueLE) ++
        idsOf s.channel.tasksInProgress := hnot
    have htq : t.id ∈ idsOf ((s.channel.tasksInQueue ++ [t]).mergeSort queueLE) :=
      id_mem_idsOf (List.mem_mergeSort.2 (List.mem_append.2 (Or.inr
        (List.mem_cons_self t []))))
    have htne : ¬ tid = t.id := by
      intro hh
      apply hnot'
      exact List.mem_append.2 (Or.inl (hh ▸ htq))
    have hts2 : tid ∉ stateIds s := by
      intro hm
      apply hnot'
      rcases List.mem_append.1 (by simpa [stateIds] using hm) with hm' | hm'
      · obtain ⟨u, hu, hid⟩ := exists_of_mem_idsOf hm'
        refine List.mem_append.2 (Or.inl ?_)
        rw [← hid]
        exact id_mem_idsOf (List.mem_mergeSort.2 (List.mem_append.2 (Or.inl hu)))
      · exact List.mem_append.2 (Or.inr hm')
    show doneTrace tid (eventsFor tid (s.events ++ [ChannelEvent.taskAdded t.id]))
    rw [eventsFor_suffix_of_ids tid t.id (fun hh => htne hh.symm) s.events _
      (suffix_ids_A t.id)]
    exact h.done tid hts2

theorem mem_stateIds_of_queue (s : SchedState) (tid : Nat)
    (hm : tid ∈ idsOf s.channel.tasksInQueue) : tid ∈ stateIds s :=
  List.mem_append.2 (Or.inl hm)

theorem mem_stateIds_of_inflight (s : SchedState) (tid : Nat)
    (hm : tid ∈ idsOf s.channel.tasksInProgress) : tid ∈ stateIds s :=
  List.mem_append.2 (Or.inr hm)

theorem cancelAll_events_unchanged (s : SchedState) (tid : Nat)
    (hni : tid ∉ idsOf s.channel.tasksInQueue) :
    eventsFor tid (cancelAllChannelTasks s).events = eventsFor tid s.events := by
  rw [cancelAllChannelTasks_eq s]
  show eventsFor tid (s.events ++ ChannelEvent.cancelledAllTasks ::
    s.channel.tasksInQueue.map (fun u => ChannelEvent.taskCancelled u.id)) = _
  apply eventsFor_suffix_none
  intro e he
  rcases List.mem_cons.1 he with rfl | he'
  · simp [eventTaskId]
  · obtain ⟨u, hu, rfl⟩ := List.mem_map.1 he'
    simp only [eventTaskId, Option.some.injEq]
    intro hh
    exact hni (hh ▸ id_mem_idsOf hu)

theorem proccessChannel_events_unchanged (s : SchedState) (tid : Nat)
    (hni : tid ∉ idsOf s.channel.tasksInQueue) :
    eventsFor tid (proccessChannel s).events = eventsFor tid s.events := by
  by_cases hcap : s.channel.concurrency ≤ (s.channel.tasksInProgress.length : Int)
  · rw [proccessChannel_at_capacity s hcap]
  · push_neg at hcap
    match hq : s.channel.tasksInQueue with
    | [] => rw [proccessChannel_queue_nil s hq]
    | t :: rest =>
      have hne : ¬ t.id = tid := by
        intro hh
        apply hni
        rw [hq, idsOf_cons, ← hh]
        exact List.mem_cons_self _ _
      match hw : t.work with
      | .throws e =>
        rw [proccessChannel_throws_eq s t rest e hcap hq hw]
        exact eventsFor_suffix_of_ids tid t.id hne s.events _
          (suffix_ids_SC t.id false true e)
      | .ret v =>
        by_cases hp : isPromise v = true
        · rw [proccessChannel_promise_eq s t rest v hcap hq hw hp]
          exact eventsFor_suffix_of_ids tid t.id hne s.events _ (suffix_ids_S t.id)
        · rw [proccessChannel_sync_eq s t rest v hcap hq hw (by simpa using hp)]
          exact eventsFor_suffix_of_ids tid t.id hne s.events _
            (suffix_ids_SC t.id true false v)

theorem settleTask_events_unchanged (s : SchedState) (tid' tid : Nat)
    (hni : tid ∉ idsOf s.channel.tasksInProgress) :
    eventsFor tid (settleTask s tid').events = eventsFor tid s.events := by
  match hf : s.channel.tasksInProgress.find? (fun x => x.id = tid') with
  | none => rw [settleTask_not_found s tid' hf]
  | some t =>
    have hmem : t ∈ s.channel.tasksInProgress := List.mem_of_find?_eq_some hf
    have hne : ¬ t.id = tid := by
      intro hh
      exact hni (hh ▸ id_mem_idsOf hmem)
    match hw : t.work with
    | .throws e =>
      unfold settleTask
      rw [hf]
      dsimp only
      rw [hw]
    | .ret v =>
      by_cases hp : isPromise v = true
      · rw [settleTask_found_eq s tid' t v hf hw hp]
        exact eventsFor_suffix_of_ids tid t.id hne s.events _ (suffix_ids_settle t)
      · unfold settleTask
        rw [hf]
        dsimp only
        rw [hw]
        dsimp only
        rw [if_neg hp]

theorem cancelOne_events_unchanged (s : SchedState) (w : Nat) (tid : Nat)
    (hni : tid ∉ idsOf s.channel.tasksInQueue) :
    eventsFor tid (cancelChannelTask s w).events = eventsFor tid s.events := by
  match he : extractFirstByWorkRef w s.channel.tasksInQueue with
  | none => rw [cancelChannelTask_not_found s w he]
  | some (t, q') =>
    obtain ⟨pre, post, hl, hq'⟩ := extractFirstByWorkRef_decomp w _ t q' he
    have htmem : t ∈ s.channel.tasksInQueue := by
      rw [hl]
      exact List.mem_append.2 (Or.inr (List.mem_cons_self t post))
    have hne : ¬ t.id = tid := by
      intro hh
      exact hni (hh ▸ id_mem_idsOf htmem)
    rw [cancelChannelTask_found_eq s w t q' he]
    exact eventsFor_suffix_of_ids tid t.id hne s.events _ (suffix_ids_X t.id)

theorem addTask_events_unchanged (s : SchedState) (t : ChannelTask) (tid : Nat)
    (hnt : ¬ tid = t.id) (hni : tid ∉ idsOf s.channel.tasksInQueue) :
    eventsFor tid (addTaskToChannel s t).events = eventsFor tid s.events := by
  show eventsFor tid (proccessChannel
    ⟨⟨s.channel.concurrency, s.channel.tasksInProgress,
      (s.channel.tasksInQueue ++ [t]).mergeSort queueLE⟩,
      s.events ++ [ChannelEvent.taskAdded t.id], s.pendingTicks⟩).events = _
  rw [proccessChannel_events_unchanged _ tid ?hq]
  · exact eventsFor_suffix_of_ids tid t.id (fun hh => hnt hh.symm) s.events _
      (suffix_ids_A t.id)
  case hq =>
    intro hm
    obtain ⟨u, hu, hid⟩ := exists_of_mem_idsOf hm
    rcases List.mem_append.1 (List.mem_mergeSort.1 hu) with hu' | hu'
    · exact hni (hid ▸ id_mem_idsOf hu')
    · have : u = t := by simpa using hu'
      subst this
      exact hnt hid.symm

theorem inv_set_pendingTicks (s : SchedState) (n : Nat) (h : Inv s) :
    Inv { s with pendingTicks := n } :=
  ⟨h.nodup, h.queued, h.inflight, h.done⟩

theorem applyOp_inv (s : SchedState) (op : Op) (h : Inv s)
    (hfresh : ∀ i ∈ opSubmitIds op, eventsFor i s.events = []) :
    Inv (applyOp s op) := by
  match op with
  | .submit t =>
    exact addTask_inv s t h (hfresh t.id (List.mem_cons_self _ _))
  | .submitExclusive t =>
    have hf : eventsFor t.id s.events = [] := hfresh t.id (List.mem_cons_self _ _)
    by_cases hq : s.channel.tasksInQueue.isEmpty
    · have heq : applyOp s (Op.submitExclusive t) = addTaskToChannel s t := by
        simp [applyOp, addTaskToChannelExclusively, hq]
      rw [heq]
      exact addTask_inv s t h hf
    · have heq : applyOp s (Op.submitExclusive t) =
          addTaskToChannel (cancelAllChannelTasks s) t := by
        simp [applyOp, addTaskToChannelExclusively, hq]
      rw [heq]
      have hts : t.id ∉ stateIds s := not_mem_stateIds_of_no_events s h t.id hf
      have hniq : t.id ∉ idsOf s.channel.tasksInQueue := by
        intro hm
        exact hts (mem_stateIds_of_queue s t.id hm)
      refine addTask_inv _ t (cancelAll_inv s h) ?_
      rw [cancelAll_events_unchanged s t.id hniq]
      exact hf
  | .submitIfIdle t =>
    by_cases hq : s.channel.tasksInQueue.isEmpty
    · have heq : applyOp s (Op.submitIfIdle t) = addTaskToChannel s t := by
        simp [applyOp, addTaskToChannelIfEmpty, hq]
      rw [heq]
      exact addTask_inv s t h (hfresh t.id (List.mem_cons_self _ _))
    · have heq : applyOp s (Op.submitIfIdle t) = s := by
        simp [applyOp, addTaskToChannelIfEmpty, hq]
      rw [heq]
      exact h
  | .cancelAll => exact cancelAll_inv s h
  | .cancelOne w => exact cancelOne_inv s w h
  | .settle tid => exact settleTask_inv s tid h
  | .tick =>
    match hpt : s.pendingTicks with
    | 0 =>
      have heq : applyOp s Op.tick = s := by
        show runTick s = s
        unfold runTick
        rw [hpt]
      rw [heq]
      exact h
    | n + 1 =>
      have heq : applyOp s Op.tick = proccessChannel { s with pendingTicks := n } :=
        runTick_succ s n hpt
      rw [heq]
      exact proccessChannel_inv _ (inv_set_pendingTicks s n h)

theorem applyOp_untouched (s : SchedState) (op : Op) (h : Inv s) (tid : Nat)
    (hemp : eventsFor tid s.events = []) (hni : tid ∉ opSubmitIds op) :
    eventsFor tid (applyOp s op).events = [] := by
  have hts : tid ∉ stateIds s := not_mem_stateIds_of_no_events s h tid hemp
  have hniq : tid ∉ idsOf s.channel.tasksInQueue := by
    intro hm
    exact hts (mem_stateIds_of_queue s tid hm)
  have hnip : tid ∉ idsOf s.channel.tasksInProgress := by
    intro hm
    exact hts (mem_stateIds_of_inflight s tid hm)
  match op with
  | .submit t =>
    have hnt : ¬ tid = t.id := by simpa [opSubmitIds] using hni
    rw [show applyOp s (Op.submit t) = addTaskToChannel s t from rfl,
      addTask_events_unchanged s t tid hnt hniq]
    exact hemp
  | .submitExclusive t =>
    have hnt : ¬ tid = t.id := by simpa [opSubmitIds] using hni
    by_cases hq : s.channel.tasksInQueue.isEmpty
    · have heq : applyOp s (Op.submitExclusive t) = addTaskToChannel s t := by
        simp [applyOp, addTaskToChannelExclusively, hq]
      rw [heq, addTask_events_unchanged s t tid hnt hniq]
      exact hemp
    · have heq : applyOp s (Op.submitExclusive t) =
          addTaskToChannel (cancelAllChannelTasks s) t := by
        simp [applyOp, addTaskToChannelExclusively, hq]
      rw [heq, addTask_events_unchanged _ t tid hnt
        (by rw [cancelAllChannelTasks_eq s]; simp [idsOf]),
        cancelAll_events_unchanged s tid hniq]
      exact hemp
  | .submitIfIdle t =>
    have hnt : ¬ tid = t.id := by simpa [opSubmitIds] using hni
    by_cases hq : s.channel.tasksInQueue.isEmpty
    · have heq : applyOp s (Op.submitIfIdle t) = addTaskToChannel s t := by
        simp [applyOp, addTaskToChannelIfEmpty, hq]
      rw [heq, addTask_events_unchanged s t tid hnt hniq]
      exact hemp
    · have heq : applyOp s (Op.submitIfIdle t) = s := by
        simp [applyOp, addTaskToChannelIfEmpty, hq]
      rw [heq]
      exact hemp
  | .cancelAll =>
    rw [show applyOp s Op.cancelAll = cancelAllChannelTasks s from rfl,
      cancelAll_events_unchanged s tid hniq]
    exact hemp
  | .cancelOne w =>
    rw [show applyOp s (Op.cancelOne w) = cancelChannelTask s w from rfl,
      cancelOne_events_unchanged s w tid hniq]
    exact hemp
  | .settle tid' =>
    rw [show applyOp s (Op.settle tid') = settleTask s tid' from rfl,
      settleTask_events_unchanged s tid' tid hnip]
    exact hemp
  | .tick =>
    match hpt : s.pendingTicks with
    | 0 =>
      have heq : applyOp s Op.tick = s := by
        show runTick s = s
        unfold runTick
        rw [hpt]
      rw [heq]
      exact hemp
    | n + 1 =>
      rw [show applyOp s Op.tick = runTick s from rfl, runTick_succ s n hpt,
        proccessChannel_events_unchanged { s with pendingTicks := n } tid hniq]
      exact hemp

theorem runOps_inv : ∀ (ops : List Op) (s : SchedState), Inv s →
    (∀ i ∈ ops.flatMap opSubmitIds, eventsFor i s.events = []) →
    (ops.flatMap opSubmitIds).Nodup →
    Inv (runOps s ops)
  | [], s, h, _, _ => h
  | op :: rest, s, h, hfr, hnd => by
    rw [show runOps s (op :: rest) = runOps (applyOp s op) rest from rfl]
    rw [List.flatMap_cons] at hfr hnd
    have h1 := applyOp_inv s op h (fun i hi => hfr i (List.mem_append.2 (Or.inl hi)))
    have hdisj := List.disjoint_of_nodup_append hnd
    refine runOps_inv rest (applyOp s op) h1 ?_ hnd.of_append_right
    intro i hi
    exact applyOp_untouched s op h i (hfr i (List.mem_append.2 (Or.inr hi)))
      (fun hmem => hdisj hmem hi)

theorem initState_inv (conc : Option Int) : Inv (initState conc) := by
  refine ⟨?_, ?_, ?_, ?_⟩
  · show (idsOf ([] : List ChannelTask) ++ idsOf ([] : List ChannelTask)).Nodup
    simp [idsOf]
  · intro u hu
    exact absurd hu (List.not_mem_nil u)
  · intro u hu
    exact absurd hu (List.not_mem_nil u)
  · intro tid _
    exact Or.inl rfl

theorem goodTrace_of_inv (s : SchedState) (hInv : Inv s) (tid : Nat) :
    goodTrace tid (eventsFor tid s.events) := by
  by_cases h1 : tid ∈ idsOf s.channel.tasksInQueue
  · obtain ⟨u, hu, hid⟩ := exists_of_mem_idsOf h1
    have hq := hInv.queued u hu
    rw [hid] at hq
    rw [hq]
    exact Or.inr (Or.inl rfl)
  · by_cases h2 : tid ∈ idsOf s.channel.tasksInProgress
    · obtain ⟨u, hu, hid⟩ := exists_of_mem_idsOf h2
      have hq := hInv.inflight u hu
      rw [hid] at hq
      rw [hq]
      exact Or.inr (Or.inr (Or.inl rfl))
    · have hts : tid ∉ stateIds s := by
        intro hm
        rcases List.mem_append.1 (by simpa [stateIds] using hm) with hm' | hm'
        · exact h1 hm'
        · exact h2 hm'
      rcases hInv.done tid hts with he | he | he
      · exact Or.inl he
      · exact Or.inr (Or.inr (Or.inr (Or.inl he)))
      · exact Or.inr (Or.inr (Or.inr (Or.inr he)))

/-- C5: for every task identity, under any sequence of scheduler operations
(with each submission using a fresh task object), the events delivered for
that task form an initial segment of
`[TASK_ADDED, TASK_STARTED, TASK_COMPLETED]` or of
`[TASK_ADDED, TASK_CANCELLED]`; at most one terminal event is delivered (so
the submission handle resolves at most once, and exactly once when a terminal
event occurs); never both `TASK_STARTED` and `TASK_CANCELLED` are delivered
for the same task; and `TASK_ADDED` is always first. -/
theorem task_event_lifecycle (conc : Option Int) (ops : List Op) (tid : Nat)
    (hnd : (ops.flatMap opSubmitIds).Nodup) :
    goodTrace tid (eventsFor tid (runOps (initState conc) ops).events) ∧
    (eventsFor tid (runOps (initState conc) ops).events).countP (isTerminalEvent tid) ≤ 1 ∧
    ¬ (ChannelEvent.taskStarted tid ∈ eventsFor tid (runOps (initState conc) ops).events ∧
       ChannelEvent.taskCancelled tid ∈
         eventsFor tid (runOps (initState conc) ops).events) ∧
    (eventsFor tid (runOps (initState conc) ops).events ≠ [] →
      (eventsFor tid (runOps (initState conc) ops).events).head? =
        some (ChannelEvent.taskAdded tid)) := by
  have hInv : Inv (runOps (initState conc) ops) :=
    runOps_inv ops (initState conc) (initState_inv conc) (fun i _ => rfl) hnd
  have hg := goodTrace_of_inv _ hInv tid
  refine ⟨hg, ?_, ?_, ?_⟩
  · rcases hg with he | he | he | ⟨b, c, v, he⟩ | he <;> rw [he] <;>
      simp [isTerminalEvent]
  · rcases hg with he | he | he | ⟨b, c, v, he⟩ | he <;> rw [he] <;>
      simp [isTerminalEvent]
  · rcases hg with he | he | he | ⟨b, c, v, he⟩ | he <;> rw [he] <;> simp

/-- C5 witness: a concrete run — two submissions followed by `cancelAll` —
on a fresh channel; the trace of task 2 satisfies the lifecycle property. -/
theorem task_event_lifecycle_witness :
    goodTrace 2 (eventsFor 2 (runOps (initState (some 1))
      [Op.submit (sampleTask 1), Op.submit (sampleTask 2), Op.cancelAll]).events) ∧
    (eventsFor 2 (runOps (initState (some 1))
      [Op.submit (sampleTask 1), Op.submit (sampleTask 2),
        Op.cancelAll]).events).countP (isTerminalEvent 2) ≤ 1 ∧
    ¬ (ChannelEvent.taskStarted 2 ∈ eventsFor 2 (runOps (initState (some 1))
        [Op.submit (sampleTask 1), Op.submit (sampleTask 2), Op.cancelAll]).events ∧
       ChannelEvent.taskCancelled 2 ∈ eventsFor 2 (runOps (initState (some 1))
        [Op.submit (sampleTask 1), Op.submit (sampleTask 2), Op.cancelAll]).events) ∧
    (eventsFor 2 (runOps (initState (some 1))
        [Op.submit (sampleTask 1), Op.submit (sampleTask 2),
          Op.cancelAll]).events ≠ [] →
      (eventsFor 2 (runOps (initState (some 1))
        [Op.submit (sampleTask 1), Op.submit (sampleTask 2),
          Op.cancelAll]).events).head? = some (ChannelEvent.taskAdded 2)) :=
  task_event_lifecycle (some 1)
    [Op.submit (sampleTask 1), Op.submit (sampleTask 2), Op.cancelAll] 2 (by decide)

end SimpleAsync
